import Mathlib

/-!
Shallow embedding of the dependency-graph core of the repository:
the parser entry point `JavaParser.parse` from src/analyzer/parser.py and
`DependencyGraph.build_graph` / `DependencyGraph.get_topological_sort`
from src/analyzer/graph.py.

Modelling conventions:
* Python dicts are association lists in insertion order; `dict[k] = v`
  replaces the value in place when the key is present, else appends.
* Python sets are lists of distinct elements.  Iteration order of a set
  of strings is environment dependent (hash randomization), so the order
  in which the primary parser yields a file's import set is part of the
  parser oracle; the regex fallback's set is modelled with a canonical
  (deduplicated) order.
* The external grammar engine (javalang) is an oracle
  `Option (String → Option (String × List String))`: `none` when the
  library is missing, and a function returning `none` on a parse
  exception, else the declared package (possibly empty) and the import
  set in its iteration order.
* `networkx.DiGraph` keeps nodes in insertion order and, per node, its
  successors in edge-insertion order; re-adding a node or an edge is a
  no-op.  `networkx.topological_sort` is Kahn's algorithm by generations
  (networkx 3.x `topological_generations`): the in-degree map is built
  in node-insertion order, nodes of in-degree zero are processed FIFO,
  and newly freed children are appended in adjacency order.  It raises
  `NetworkXUnfeasible` exactly when entries of positive in-degree remain.
* Machine integers do not occur; all counts are small naturals.
-/

namespace Analyzer

/-- Python code-point comparison `a <= b` on lists of characters. -/
def pyStrLeL : List Char → List Char → Bool
  | [], _ => true
  | _ :: _, [] => false
  | a :: ts, b :: us => if a = b then pyStrLeL ts us else decide (a.toNat < b.toNat)

/-- Python `a <= b` on strings (lexicographic by code points). -/
def pyStrLe (a b : String) : Bool := pyStrLeL a.data b.data

/-- One insertion step of the sort modelling Python `sorted`. -/
def insertSorted (a : String) : List String → List String
  | [] => [a]
  | b :: t => if pyStrLe a b then a :: b :: t else b :: insertSorted a t

/-- Model of Python `sorted` on a list of strings. -/
def pySorted : List String → List String
  | [] => []
  | a :: t => insertSorted a (pySorted t)

/-- Python `s.split(sep)` for a one-character separator, on char lists. -/
def pySplitChar (sep : Char) : List Char → List (List Char)
  | [] => [[]]
  | c :: rest =>
    match pySplitChar sep rest with
    | [] => [[]]
    | g :: gs => if c = sep then [] :: g :: gs else (c :: g) :: gs

/-- `file_path.split("/")[-1]` : the base name of a path. -/
def baseName (path : String) : List Char := (pySplitChar '/' path.data).getLastD []

/-- Python `s.replace(pat, "")`: remove every occurrence of `pat`,
scanning left to right without overlap.  `fuel` bounds the scan and is
instantiated with the length of the subject. -/
def replAll (pat : List Char) : Nat → List Char → List Char
  | 0, s => s
  | _ + 1, [] => []
  | fuel + 1, c :: rest =>
    if pat.isPrefixOf (c :: rest) then replAll pat fuel ((c :: rest).drop pat.length)
    else c :: replAll pat fuel rest

/-- `class_name = file_path.split("/")[-1].replace(".java", "")`
(src/analyzer/graph.py line 39). -/
def typeName (path : String) : String :=
  let b := baseName path
  String.mk (replAll (".java").data b.length b)

/-- Remove `suf` from the end of `l` when it is a suffix. -/
def stripSuffix (suf l : List Char) : List Char :=
  if suf.isSuffixOf l then l.take (l.length - suf.length) else l

/-- Modelled from the spec: "Derive an inferred type name from the
file's base name (strip the extension)" — the base name with a final
`.java` extension removed.  Used only to compare the specification's
wording with the source's `typeName`. -/
def typeNameSpec (path : String) : String :=
  String.mk (stripSuffix (".java").data (baseName path))

/-- Python `path.endswith(suffix)`. -/
def pyEndsWith (s suffix : String) : Bool := suffix.data.isSuffixOf s.data

/-- `JavaParser.parse` (src/analyzer/parser.py lines 13-26): returns the
sentinel `(none, ∅)` when javalang is missing or the grammar parse
raises; on success the declared package (empty string when the file has
no package clause) and the import set. -/
def JavaParser.parse (engine : Option (String → Option (String × List String)))
    (content : String) : Option String × List String :=
  match engine with
  | none => (none, [])
  | some f =>
    match f content with
    | none => (none, [])
    | some (pkg, imps) => (some pkg, imps)

/-- Character class `[\w.]` of the capture groups in the fallback
regexes (ASCII fragment of Python's re `\w`, plus the dot). -/
def wordDot (c : Char) : Bool := c.isAlphanum || c = '_' || c = '.'

/-- Character class `\s` (ASCII fragment of Python's re `\s`). -/
def isSpaceChar (c : Char) : Bool :=
  c = ' ' || c = '\t' || c = '\n' || c = '\r' || c = '\x0b' || c = '\x0c'

/-- Match the regex `kw\s+([\w.]+);` at the head of `s`.  The character
classes of `\s+` and `[\w.]+` are disjoint and neither contains `;`, so
the greedy, non-backtracking scan below is the regex's semantics.
Returns the capture and the remainder after the match. -/
def matchPat (kw : List Char) (s : List Char) : Option (List Char × List Char) :=
  if kw.isPrefixOf s then
    if ((s.drop kw.length).takeWhile isSpaceChar).isEmpty then none
    else
      if (((s.drop kw.length).dropWhile isSpaceChar).takeWhile wordDot).isEmpty then none
      else
        match ((s.drop kw.length).dropWhile isSpaceChar).dropWhile wordDot with
        | ';' :: rest =>
          some ((((s.drop kw.length).dropWhile isSpaceChar).takeWhile wordDot), rest)
        | _ => none
  else none

/-- `re.findall` for the pattern `kw\s+([\w.]+);`: scan left to right,
emit each capture, and continue after the whole match (non-overlapping).
`fuel` is instantiated with the length of the subject. -/
def scanAll (kw : List Char) : Nat → List Char → List String
  | 0, _ => []
  | _ + 1, [] => []
  | fuel + 1, c :: rest =>
    match matchPat kw (c :: rest) with
    | some (cap, rest2) => String.mk cap :: scanAll kw fuel rest2
    | none => scanAll kw fuel rest

/-- All captures of `kw\s+([\w.]+);` in `content`, in textual order. -/
def reFindAll (kw : List Char) (content : String) : List String :=
  scanAll kw content.data.length content.data

/-- `matches[0] if matches else ""` for `re.findall(r'package\s+([\w\.]+);', content)`
(src/analyzer/graph.py lines 32-33). -/
def fallbackPkg (content : String) : String :=
  (reFindAll ("package").data content).headD ""

/-- `set(re.findall(r'import\s+([\w\.]+);', content))`
(src/analyzer/graph.py lines 35-36), with a canonical iteration order. -/
def fallbackImports (content : String) : List String :=
  (reFindAll ("import").data content).dedup

/-- The parse-then-fallback step of `build_graph`
(src/analyzer/graph.py lines 27-36): the `(pkg, imports)` pair the
builder actually uses for a file. -/
def effectiveParse (parse : String → Option String × List String)
    (content : String) : String × List String :=
  match parse content with
  | (some pkg, imps) => (pkg, imps)
  | (none, _) => (fallbackPkg content, fallbackImports content)

/-- `networkx.DiGraph`: nodes in insertion order, edges in insertion
order (which also determines each node's adjacency order). -/
structure DiGraph where
  nodes : List String
  edges : List (String × String)

/-- `graph.add_node`: a no-op when the node is present. -/
def addNode (g : DiGraph) (v : String) : DiGraph :=
  if v ∈ g.nodes then g else { g with nodes := g.nodes ++ [v] }

/-- `graph.add_edge`: inserts missing endpoints, a no-op when the edge
is present. -/
def addEdge (g : DiGraph) (u v : String) : DiGraph :=
  if (u, v) ∈ (addNode (addNode g u) v).edges then addNode (addNode g u) v
  else { addNode (addNode g u) v with
         edges := (addNode (addNode g u) v).edges ++ [(u, v)] }

/-- Association-list lookup (Python `k in d` / `d[k]`). -/
def lookupA {β : Type} : List (String × β) → String → Option β
  | [], _ => none
  | (a, b) :: t, k => if a = k then some b else lookupA t k

/-- Python `d[k] = v`: replace in place when the key is present, else
append. -/
def insertA : List (String × String) → String → String → List (String × String)
  | [], k, v => [(k, v)]
  | (a, b) :: t, k, v => if a = k then (k, v) :: t else (a, b) :: insertA t k v

/-- The fully qualified name computed for a file
(src/analyzer/graph.py lines 38-40):
`f"{pkg}.{class_name}" if pkg else class_name`. -/
def fullNameOf (parse : String → Option String × List String)
    (path content : String) : String :=
  let pkg := (effectiveParse parse content).1
  if pkg = "" then typeName path else pkg ++ "." ++ typeName path

/-- The state of the indexing pass of `build_graph`. -/
structure BuildState where
  class_to_file : List (String × String)
  file_imports : List (String × List String)
  graph : DiGraph

/-- One iteration of the indexing pass
(src/analyzer/graph.py lines 23-44). -/
def pass1Step (parse : String → Option String × List String)
    (st : BuildState) (pc : String × String) : BuildState :=
  if pyEndsWith pc.1 ".java" then
    { class_to_file := insertA st.class_to_file (fullNameOf parse pc.1 pc.2) pc.1
      file_imports := st.file_imports ++ [(pc.1, (effectiveParse parse pc.2).2)]
      graph := addNode st.graph pc.1 }
  else st

/-- The indexing pass of `build_graph` over the input mapping. -/
def pass1 (parse : String → Option String × List String)
    (files : List (String × String)) : BuildState :=
  files.foldl (pass1Step parse) ⟨[], [], ⟨[], []⟩⟩

/-- The edge pass for one file (src/analyzer/graph.py lines 47-53):
references found in the symbol index become edges, others are dropped. -/
def addImportEdges (ctf : List (String × String)) (g : DiGraph)
    (fp : String) (imps : List String) : DiGraph :=
  imps.foldl (fun g2 imp =>
    match lookupA ctf imp with
    | some target => addEdge g2 fp target
    | none => g2) g

/-- The edge pass of `build_graph`. -/
def pass2 (st : BuildState) : DiGraph :=
  st.file_imports.foldl (fun g fi => addImportEdges st.class_to_file g fi.1 fi.2) st.graph

/-- `DependencyGraph.build_graph` (src/analyzer/graph.py lines 13-53),
parameterized by the primary parser `parse` (see `JavaParser.parse`). -/
def build_graph (parse : String → Option String × List String)
    (files : List (String × String)) : DiGraph :=
  pass2 (pass1 parse files)

/-- `G.neighbors u`: successors of `u` in edge-insertion order. -/
def adjOf (g : DiGraph) (u : String) : List String :=
  (g.edges.filter (fun e => decide (e.1 = u))).map Prod.snd

/-- `G.in_degree v` (no parallel edges; self-loops count). -/
def inDeg (g : DiGraph) (v : String) : Nat :=
  g.edges.countP (fun e => decide (e.2 = v))

/-- Map update on the in-degree map (key assumed present). -/
def setA : List (String × Nat) → String → Nat → List (String × Nat)
  | [], _, _ => []
  | (a, b) :: t, k, n => if a = k then (k, n) :: t else (a, b) :: setA t k n

/-- `del indegree_map[child]`. -/
def eraseA : List (String × Nat) → String → List (String × Nat)
  | [], _ => []
  | (a, b) :: t, k => if a = k then t else (a, b) :: eraseA t k

/-- Process the children of a dequeued node: decrement each child's
in-degree entry; an entry reaching zero is deleted and the child is
appended to the worklist.  A child with no entry is skipped (for a
static graph that branch is unreachable: such a child would already
have been dequeued or enqueued, which the readiness invariant of
Kahn's algorithm excludes). -/
def decChildren : List (String × Nat) → List String → List String →
    List (String × Nat) × List String
  | m, q, [] => (m, q)
  | m, q, c :: cs =>
    match lookupA m c with
    | none => decChildren m q cs
    | some k =>
      if k = 1 then decChildren (eraseA m c) (q ++ [c]) cs
      else decChildren (setA m c (k - 1)) q cs

/-- Kahn's algorithm with a FIFO worklist; the flattening of
networkx's generation-by-generation loop, which yields nodes in
exactly this order.  Returns the emitted order and the residual
in-degree map (nonempty exactly when networkx raises
`NetworkXUnfeasible`).  `fuel` is instantiated with the node count. -/
def kahnAux (adj : String → List String) :
    Nat → List String → List (String × Nat) → List String × List (String × Nat)
  | 0, _, m => ([], m)
  | _ + 1, [], m => ([], m)
  | fuel + 1, u :: rest, m =>
    let p := decChildren m rest (adj u)
    let r := kahnAux adj fuel p.2 p.1
    (u :: r.1, r.2)

/-- `[v for v, d in G.in_degree() if d == 0]` in node order. -/
def initQueue (g : DiGraph) : List String :=
  g.nodes.filter (fun v => decide (inDeg g v = 0))

/-- `{v: d for v, d in G.in_degree() if d > 0}` in node order. -/
def initMap (g : DiGraph) : List (String × Nat) :=
  (g.nodes.filter (fun v => !decide (inDeg g v = 0))).map (fun v => (v, inDeg g v))

/-- `list(nx.topological_sort(G))` together with the residual map. -/
def topoRaw (g : DiGraph) : List String × List (String × Nat) :=
  kahnAux (adjOf g) g.nodes.length (initQueue g) (initMap g)

/-- `DependencyGraph.get_topological_sort`
(src/analyzer/graph.py lines 88-94): the reversed topological order,
or on `NetworkXUnfeasible` (a cycle) the lexicographically sorted node
list. -/
def get_topological_sort (g : DiGraph) : List String :=
  let r := topoRaw g
  if r.2 = [] then r.1.reverse else pySorted g.nodes

/-- A nonempty edge chain starting at `a` through the vertices of `t`. -/
def chainB (E : List (String × String)) : String → List String → Bool
  | _, [] => true
  | a, b :: t => decide ((a, b) ∈ E) && chainB E b t

/-- `l` is a cycle of `E`: a chain of length at least one whose last
vertex equals its first. -/
def isCycle (E : List (String × String)) : List String → Bool
  | [] => false
  | v :: rest => !rest.isEmpty && chainB E v rest && decide (rest.getLastD v = v)

/-- The graph has no cycle (self-loops included). -/
def Acyclic (g : DiGraph) : Prop := ∀ l, isCycle g.edges l = false

/-- The graph has a cycle. -/
def HasCycle (g : DiGraph) : Prop := ∃ l, isCycle g.edges l = true

/-- Position of the first occurrence of `x` (length of the list when
absent). -/
def posOf : List String → String → Nat
  | [], _ => 0
  | a :: t, x => if a = x then 0 else posOf t x + 1

/-- Number of edges into `v` whose source is not yet emitted (not in
`D`); the quantity maintained in the in-degree map entries. -/
def tcount (E : List (String × String)) (D : List String) (v : String) : Nat :=
  E.countP (fun e => decide (e.2 = v) && !(decide (e.1 ∈ D)))

/-- First in-neighbour of `v` inside `S` (or `v` itself when none). -/
def walkF (E : List (String × String)) (S : List String) (v : String) : String :=
  (S.find? (fun u => decide ((u, v) ∈ E))).getD v

/-- Backward walk along in-neighbours inside `S`. -/
def walk (E : List (String × String)) (S : List String) (v0 : String) : Nat → String
  | 0 => v0
  | n + 1 => walkF E S (walk E S v0 n)

/-- The chain `[walk (i+k), …, walk (i+1), walk i]`. -/
def walkChain (E : List (String × String)) (S : List String) (v0 : String)
    (i : Nat) : Nat → List String
  | 0 => [walk E S v0 i]
  | k + 1 => walk E S v0 (i + k + 1) :: walkChain E S v0 i k

/-- Well-formedness of a graph as produced by the builder: distinct
nodes, distinct edges, and every edge endpoint a node. -/
structure GraphWF (g : DiGraph) : Prop where
  nodesN : g.nodes.Nodup
  edgesN : g.edges.Nodup
  ends : ∀ e ∈ g.edges, e.1 ∈ g.nodes ∧ e.2 ∈ g.nodes

/-- Invariant of the outer Kahn loop: `D` is the emitted prefix, `q`
the worklist and `m` the in-degree map. -/
structure KInv (N : List String) (E : List (String × String))
    (D q : List String) (m : List (String × Nat)) : Prop where
  dnodup : D.Nodup
  qnodup : q.Nodup
  mnodup : (m.map Prod.fst).Nodup
  dq : ∀ x ∈ D, x ∉ q
  dm : ∀ x ∈ D, x ∉ m.map Prod.fst
  qm : ∀ x ∈ q, x ∉ m.map Prod.fst
  cover : ∀ x ∈ N, x ∈ D ∨ x ∈ q ∨ x ∈ m.map Prod.fst
  dsub : ∀ x ∈ D, x ∈ N
  qsub : ∀ x ∈ q, x ∈ N
  msub : ∀ x ∈ m.map Prod.fst, x ∈ N
  count : ∀ v k, (v, k) ∈ m → 0 < k ∧ k = tcount E D v
  ready : ∀ v ∈ q, ∀ u, (u, v) ∈ E → u ∈ D

/-- Invariant of the inner loop while the children `cs` of the newly
emitted node `u` are being processed. -/
structure MInv (N : List String) (E : List (String × String)) (u : String)
    (D q : List String) (m : List (String × Nat)) (cs : List String) : Prop where
  dnodup : (u :: D).Nodup
  qnodup : q.Nodup
  mnodup : (m.map Prod.fst).Nodup
  dq : ∀ x ∈ u :: D, x ∉ q
  dm : ∀ x ∈ u :: D, x ∉ m.map Prod.fst
  qm : ∀ x ∈ q, x ∉ m.map Prod.fst
  cover : ∀ x ∈ N, x ∈ u :: D ∨ x ∈ q ∨ x ∈ m.map Prod.fst
  dsub : ∀ x ∈ u :: D, x ∈ N
  qsub : ∀ x ∈ q, x ∈ N
  msub : ∀ x ∈ m.map Prod.fst, x ∈ N
  csE : ∀ c ∈ cs, (u, c) ∈ E
  csnodup : cs.Nodup
  count : ∀ v k, (v, k) ∈ m →
    0 < k ∧ k = tcount E (u :: D) v + (if v ∈ cs then 1 else 0)
  ready : ∀ v ∈ q, ∀ w, (w, v) ∈ E → w ∈ u :: D

/-- A primary-parser oracle that always reports a parse failure (the
sentinel): javalang absent or every parse raising. -/
def pstub : String → Option String × List String := fun _ => (none, [])

/-- Input mapping for the determinism analysis: `C.java` references
both other files. -/
def filesABC : List (String × String) := [("A.java", "ca"), ("B.java", "cb"), ("C.java", "cc")]

/-- Parser oracle whose import set for `C.java` is iterated as
`p.A, p.B`. -/
def impOrder1 : String → Option String × List String := fun c =>
  if c = "cc" then (some "p", ["p.A", "p.B"]) else (some "p", [])

/-- Parser oracle identical to `impOrder1` as a set-valued parser, but
iterating the same import set as `p.B, p.A`. -/
def impOrder2 : String → Option String × List String := fun c =>
  if c = "cc" then (some "p", ["p.B", "p.A"]) else (some "p", [])

/-- Capture of the pattern `kw\s+([\w.]+);` matched at offset `i` of
`content` (an occurrence of the pattern, in the spec's words). -/
def capAt (kw : List Char) (content : String) (i : Nat) : Option String :=
  (matchPat kw (content.data.drop i)).map (fun pr => String.mk pr.1)

theorem lookupA_insertA (m : List (String × String)) (k v k' : String) :
    lookupA (insertA m k v) k' = if k' = k then some v else lookupA m k' := by
  induction m with
  | nil =>
    simp only [insertA, lookupA]
    by_cases h : k = k'
    · simp [h]
    · simp [h, Ne.symm h]
  | cons ab t ih =>
    obtain ⟨a, b⟩ := ab
    simp only [insertA]
    by_cases hak : a = k
    · by_cases h : k = k'
      · simp [lookupA, hak, h, if_pos (hak.trans h)]
      · have h2 : ¬ a = k' := fun hh => h (hak.symm.trans hh)
        simp [lookupA, hak, h, Ne.symm h, h2]
    · simp only [if_neg hak, lookupA]
      by_cases h : a = k'
      · have hkk : ¬ k' = k := fun hh => hak (h.trans hh)
        simp [h, hkk]
      · simp [h, ih]

theorem mem_insertA (m : List (String × String)) (k v : String) :
    ∀ kv ∈ insertA m k v, kv ∈ m ∨ kv = (k, v) := by
  induction m with
  | nil => intro kv h; simp [insertA] at h; exact Or.inr h
  | cons ab t ih =>
    intro kv h
    obtain ⟨a, b⟩ := ab
    by_cases hak : a = k
    · subst hak
      simp [insertA] at h
      rcases h with h | h
      · exact Or.inr (by simp [h])
      · exact Or.inl (by simp [h])
    · simp [insertA, hak] at h
      rcases h with h | h
      · exact Or.inl (by simp [h])
      · rcases ih kv h with h2 | h2
        · exact Or.inl (by simp [h2])
        · exact Or.inr h2

theorem keys_insertA (m : List (String × String)) (k v x : String) :
    x ∈ (insertA m k v).map Prod.fst ↔ x ∈ m.map Prod.fst ∨ x = k := by
  induction m with
  | nil => simp [insertA]
  | cons ab t ih =>
    obtain ⟨a, b⟩ := ab
    by_cases hak : a = k
    · subst hak; simp [insertA]; tauto
    · simp [insertA, hak, ih]; tauto

theorem keys_insertA_nodup (m : List (String × String)) (k v : String)
    (h : (m.map Prod.fst).Nodup) : ((insertA m k v).map Prod.fst).Nodup := by
  induction m with
  | nil => simp [insertA]
  | cons ab t ih =>
    obtain ⟨a, b⟩ := ab
    simp only [List.map_cons, List.nodup_cons] at h
    by_cases hak : a = k
    · simp only [insertA, if_pos hak, List.map_cons, List.nodup_cons]
      exact ⟨hak ▸ h.1, h.2⟩
    · simp only [insertA, if_neg hak, List.map_cons, List.nodup_cons]
      refine ⟨?_, ih h.2⟩
      rw [keys_insertA]
      rintro (hx | hx)
      · exact h.1 hx
      · exact hak hx

theorem getLast?_cons_eq {α : Type} (x : α) (l : List α) :
    (x :: l).getLast? = some ((l.getLast?).getD x) := by
  induction l generalizing x with
  | nil => rfl
  | cons y t ih => simp [List.getLast?_cons_cons, ih]

theorem pass1Step_java (parse : String → Option String × List String)
    (st : BuildState) (pc : String × String) (h : pyEndsWith pc.1 ".java" = true) :
    pass1Step parse st pc =
      { class_to_file := insertA st.class_to_file (fullNameOf parse pc.1 pc.2) pc.1
        file_imports := st.file_imports ++ [(pc.1, (effectiveParse parse pc.2).2)]
        graph := addNode st.graph pc.1 } := by
  simp [pass1Step, h]

theorem pass1Step_skip (parse : String → Option String × List String)
    (st : BuildState) (pc : String × String) (h : ¬ pyEndsWith pc.1 ".java" = true) :
    pass1Step parse st pc = st := by
  simp [pass1Step, h]

theorem ctf_foldl_lookup (parse : String → Option String × List String) :
    ∀ (files : List (String × String)) (st : BuildState) (fqn : String),
      lookupA ((files.foldl (pass1Step parse) st).class_to_file) fqn =
        ((files.filter (fun pc => pyEndsWith pc.1 ".java" &&
            decide (fullNameOf parse pc.1 pc.2 = fqn))).getLast?).elim
          (lookupA st.class_to_file fqn) (fun pc => some pc.1) := by
  intro files
  induction files with
  | nil => intro st fqn; rfl
  | cons pc rest ih =>
    intro st fqn
    rw [List.foldl_cons, ih]
    by_cases hj : pyEndsWith pc.1 ".java" = true
    · by_cases hf : fullNameOf parse pc.1 pc.2 = fqn
      · have hpred : (pyEndsWith pc.1 ".java" &&
            decide (fullNameOf parse pc.1 pc.2 = fqn)) = true := by simp [hj, hf]
        rw [List.filter_cons]
        simp only [hpred, if_true]
        cases hrest : (rest.filter (fun pc => pyEndsWith pc.1 ".java" &&
            decide (fullNameOf parse pc.1 pc.2 = fqn))).getLast? with
        | some y => simp [getLast?_cons_eq, hrest]
        | none =>
          simp only [getLast?_cons_eq, hrest, Option.getD_none, Option.elim]
          rw [pass1Step_java parse st pc hj]
          simp [lookupA_insertA, hf]
      · have hpred : (pyEndsWith pc.1 ".java" &&
            decide (fullNameOf parse pc.1 pc.2 = fqn)) = false := by simp [hf]
        rw [List.filter_cons]
        simp only [hpred, Bool.false_eq_true, if_false]
        rw [pass1Step_java parse st pc hj]
        have hlk : lookupA (insertA st.class_to_file (fullNameOf parse pc.1 pc.2) pc.1) fqn
            = lookupA st.class_to_file fqn := by
          rw [lookupA_insertA]; exact if_neg (fun hh => hf hh.symm)
        simp only [hlk]
    · have hpred : (pyEndsWith pc.1 ".java" &&
          decide (fullNameOf parse pc.1 pc.2 = fqn)) = false := by
        simp [Bool.not_eq_true] at hj
        simp [hj]
      rw [List.filter_cons]
      simp only [hpred, Bool.false_eq_true, if_false]
      rw [pass1Step_skip parse st pc hj]

theorem ctf_keys_nodup (parse : String → Option String × List String) :
    ∀ (files : List (String × String)) (st : BuildState),
      ((st.class_to_file).map Prod.fst).Nodup →
      (((files.foldl (pass1Step parse) st).class_to_file).map Prod.fst).Nodup := by
  intro files
  induction files with
  | nil => intro st h; exact h
  | cons pc rest ih =>
    intro st h
    rw [List.foldl_cons]
    apply ih
    by_cases hj : pyEndsWith pc.1 ".java" = true
    · rw [pass1Step_java parse st pc hj]
      exact keys_insertA_nodup _ _ _ h
    · rw [pass1Step_skip parse st pc hj]; exact h

/-- C6: during the indexing pass the SymbolIndex maps each fully
qualified name to at most one file path (its key list is
duplicate-free), and a fully qualified name computed by several input
files resolves to the path of the file processed last: later files
silently overwrite earlier entries and no error is raised (the builder
is a total function). -/
theorem c6_symbol_index_last_wins (parse : String → Option String × List String)
    (files : List (String × String)) :
    (((pass1 parse files).class_to_file).map Prod.fst).Nodup ∧
    ∀ fqn, lookupA (pass1 parse files).class_to_file fqn =
      ((files.filter (fun pc => pyEndsWith pc.1 ".java" &&
          decide (fullNameOf parse pc.1 pc.2 = fqn))).getLast?).map Prod.fst := by
  constructor
  · exact ctf_keys_nodup parse files ⟨[], [], ⟨[], []⟩⟩ (by simp)
  · intro fqn
    rw [pass1, ctf_foldl_lookup]
    cases (files.filter (fun pc => pyEndsWith pc.1 ".java" &&
        decide (fullNameOf parse pc.1 pc.2 = fqn))).getLast? with
    | none => rfl
    | some y => rfl

/-- C7 counterexample: with no grammar engine available (javalang
missing), the public `JavaParser.parse` returns the sentinel
`namespace = none` to its caller, so the sentinel is exposed outside
the Parser component and the fallback is not performed inside `parse`. -/
theorem c7_counterexample : (JavaParser.parse none "class A").1 = none := rfl

/-- C7 (amended): `JavaParser.parse` never raises but returns the
sentinel pair `(none, ∅)` exactly when the engine is missing or the
grammar parse fails; it is the caller `build_graph` that detects the
sentinel and substitutes the regex fallback, so the pair the builder
uses is always a usable `(namespace, references)` pair. -/
theorem c7_sentinel_amended (engine : Option (String → Option (String × List String)))
    (content : String) :
    ((JavaParser.parse engine content).1 = none ↔
      engine = none ∨ ∃ f, engine = some f ∧ f content = none) ∧
    ((JavaParser.parse engine content).1 = none →
      effectiveParse (JavaParser.parse engine) content =
        (fallbackPkg content, fallbackImports content)) ∧
    (∀ pkg imps, JavaParser.parse engine content = (some pkg, imps) →
      effectiveParse (JavaParser.parse engine) content = (pkg, imps)) := by
  refine ⟨?_, ?_, ?_⟩
  · cases engine with
    | none => simp [JavaParser.parse]
    | some f =>
      cases hf : f content with
      | none => simp [JavaParser.parse, hf]
      | some pr => simp [JavaParser.parse, hf]
  · intro h
    unfold effectiveParse
    cases hp : JavaParser.parse engine content with
    | mk o imps =>
      cases o with
      | none => simp
      | some pkg => rw [hp] at h; simp at h
  · intro pkg imps h
    unfold effectiveParse
    rw [h]

/-- C7 witness: the sentinel branch and the success branch of the
amended statement at concrete inputs. -/
theorem c7_witness :
    effectiveParse (JavaParser.parse none) "class A" =
      (fallbackPkg "class A", fallbackImports "class A") ∧
    effectiveParse (JavaParser.parse (some (fun _ => some ("p", ["q"])))) "class A" =
      ("p", ["q"]) :=
  ⟨(c7_sentinel_amended none "class A").2.1 rfl,
   (c7_sentinel_amended (some (fun _ => some ("p", ["q"]))) "class A").2.2 "p" ["q"] rfl⟩

theorem mem_addNode_self (g : DiGraph) (v : String) : v ∈ (addNode g v).nodes := by
  unfold addNode; split
  · assumption
  · simp

theorem mem_addNode_of (g : DiGraph) (v x : String) (h : x ∈ g.nodes) :
    x ∈ (addNode g v).nodes := by
  unfold addNode; split
  · exact h
  · simp [h]

theorem mem_addEdge_of (g : DiGraph) (u v x : String) (h : x ∈ g.nodes) :
    x ∈ (addEdge g u v).nodes := by
  unfold addEdge; split
  · exact mem_addNode_of _ _ _ (mem_addNode_of _ _ _ h)
  · exact mem_addNode_of _ _ _ (mem_addNode_of _ _ _ h)

theorem pass1_nodes_mono (parse : String → Option String × List String) :
    ∀ (files : List (String × String)) (st : BuildState) (x : String),
      x ∈ st.graph.nodes → x ∈ (files.foldl (pass1Step parse) st).graph.nodes := by
  intro files
  induction files with
  | nil => intro st x h; exact h
  | cons pc rest ih =>
    intro st x h
    rw [List.foldl_cons]
    apply ih
    by_cases hj : pyEndsWith pc.1 ".java" = true
    · rw [pass1Step_java parse st pc hj]; exact mem_addNode_of _ _ _ h
    · rw [pass1Step_skip parse st pc hj]; exact h

theorem mem_nodes_foldl (parse : String → Option String × List String) :
    ∀ (files : List (String × String)) (st : BuildState) (pc : String × String),
      pc ∈ files → pyEndsWith pc.1 ".java" = true →
      pc.1 ∈ (files.foldl (pass1Step parse) st).graph.nodes := by
  intro files
  induction files with
  | nil => intro st pc h; simp at h
  | cons q rest ih =>
    intro st pc h hj
    rw [List.foldl_cons]
    rcases List.mem_cons.mp h with h | h
    · subst h
      apply pass1_nodes_mono
      rw [pass1Step_java parse st pc hj]
      exact mem_addNode_self _ _
    · exact ih _ pc h hj

theorem addImportEdges_cons (ctf : List (String × String)) (g : DiGraph)
    (fp imp : String) (rest : List String) :
    addImportEdges ctf g fp (imp :: rest) =
      addImportEdges ctf
        (match lookupA ctf imp with
         | some target => addEdge g fp target
         | none => g) fp rest := rfl

theorem addImportEdges_nodes_mem (ctf : List (String × String)) :
    ∀ (imps : List String) (g : DiGraph) (fp x : String),
      x ∈ g.nodes → x ∈ (addImportEdges ctf g fp imps).nodes := by
  intro imps
  induction imps with
  | nil => intro g fp x h; exact h
  | cons imp rest ih =>
    intro g fp x h
    rw [addImportEdges_cons]
    cases hl : lookupA ctf imp with
    | none => simp only [hl]; exact ih _ _ _ h
    | some target => simp only [hl]; exact ih _ _ _ (mem_addEdge_of _ _ _ _ h)

theorem pass2_foldl_nodes_mem (ctf : List (String × String)) :
    ∀ (fis : List (String × List String)) (g : DiGraph) (x : String),
      x ∈ g.nodes →
      x ∈ (fis.foldl (fun g2 fi => addImportEdges ctf g2 fi.1 fi.2) g).nodes := by
  intro fis
  induction fis with
  | nil => intro g x h; exact h
  | cons fi rest ih =>
    intro g x h
    rw [List.foldl_cons]
    exact ih _ _ (addImportEdges_nodes_mem _ _ _ _ _ h)

theorem mem_nodes_build (parse : String → Option String × List String)
    (files : List (String × String)) (pc : String × String)
    (hmem : pc ∈ files) (hj : pyEndsWith pc.1 ".java" = true) :
    pc.1 ∈ (build_graph parse files).nodes := by
  unfold build_graph pass2
  exact pass2_foldl_nodes_mem _ _ _ _ (mem_nodes_foldl parse files _ pc hmem hj)

theorem ctf_foldl_mem (parse : String → Option String × List String) :
    ∀ (files : List (String × String)) (st : BuildState) (kv : String × String),
      kv ∈ (files.foldl (pass1Step parse) st).class_to_file →
      kv ∈ st.class_to_file ∨ ∃ pc, pc ∈ files ∧ pyEndsWith pc.1 ".java" = true ∧
        kv = (fullNameOf parse pc.1 pc.2, pc.1) := by
  intro files
  induction files with
  | nil => intro st kv h; exact Or.inl h
  | cons pc rest ih =>
    intro st kv h
    rw [List.foldl_cons] at h
    rcases ih _ kv h with h2 | h2
    · by_cases hj : pyEndsWith pc.1 ".java" = true
      · rw [pass1Step_java parse st pc hj] at h2
        rcases mem_insertA _ _ _ kv h2 with h3 | h3
        · exact Or.inl h3
        · exact Or.inr ⟨pc, List.mem_cons_self _ _, hj, h3⟩
      · rw [pass1Step_skip parse st pc hj] at h2
        exact Or.inl h2
    · obtain ⟨q, hq, hqj, hkv⟩ := h2
      exact Or.inr ⟨q, List.mem_cons_of_mem _ hq, hqj, hkv⟩

/-- C4 counterexample: for the input file `a/B.java.java` the code's
inferred type name is `B` (every occurrence of `.java` is removed by
`replace`), whereas the claimed "base name with the extension
stripped" is `B.java`; the SymbolIndex entry produced is keyed `B`. -/
theorem c4_counterexample :
    typeName "a/B.java.java" = "B" ∧ typeNameSpec "a/B.java.java" = "B.java" ∧
    ("B" : String) ≠ "B.java" ∧
    (pass1 pstub [("a/B.java.java", "")]).class_to_file = [("B", "a/B.java.java")] := by
  refine ⟨by decide, by decide, by decide, by decide⟩

/-- C4 (amended): every file with the recognized extension is added as
a node unconditionally, and every SymbolIndex entry is keyed by
`"{namespace}.{type_name}"` when the parsed namespace is non-empty and
by `type_name` alone otherwise — where `type_name` is the file's base
name with every occurrence of the substring `.java` removed (which
equals stripping the extension whenever `.java` occurs only as the
final suffix). -/
theorem c4_index_key_amended (parse : String → Option String × List String)
    (files : List (String × String)) :
    (∀ pc ∈ files, pyEndsWith pc.1 ".java" = true →
      pc.1 ∈ (build_graph parse files).nodes) ∧
    (∀ kv ∈ (pass1 parse files).class_to_file,
      ∃ pc, pc ∈ files ∧ pyEndsWith pc.1 ".java" = true ∧ kv.2 = pc.1 ∧
        kv.1 = (if (effectiveParse parse pc.2).1 = "" then typeName pc.1
          else (effectiveParse parse pc.2).1 ++ "." ++ typeName pc.1)) := by
  constructor
  · intro pc hmem hj
    exact mem_nodes_build parse files pc hmem hj
  · intro kv h
    rcases ctf_foldl_mem parse files _ kv h with h2 | h2
    · simp at h2
    · obtain ⟨pc, hmem, hj, hkv⟩ := h2
      refine ⟨pc, hmem, hj, ?_, ?_⟩
      · rw [hkv]
      · rw [hkv]; rfl

/-- C4 witness: the amended statement evaluated on the
counterexample's input. -/
theorem c4_witness :
    "a/B.java.java" ∈ (build_graph pstub [("a/B.java.java", "x")]).nodes ∧
    (∃ pc, pc ∈ [("a/B.java.java", "x")] ∧ pyEndsWith pc.1 ".java" = true ∧
      ("B", "a/B.java.java").2 = pc.1 ∧
      ("B", "a/B.java.java").1 = (if (effectiveParse pstub pc.2).1 = "" then typeName pc.1
        else (effectiveParse pstub pc.2).1 ++ "." ++ typeName pc.1)) :=
  ⟨(c4_index_key_amended pstub [("a/B.java.java", "x")]).1 ("a/B.java.java", "x")
      (by decide) (by decide),
   (c4_index_key_amended pstub [("a/B.java.java", "x")]).2 ("B", "a/B.java.java") (by decide)⟩

theorem pass1Step_congr (p1 p2 : String → Option String × List String)
    (st : BuildState) (pc : String × String) (h : p1 pc.2 = p2 pc.2) :
    pass1Step p1 st pc = pass1Step p2 st pc := by
  have he : effectiveParse p1 pc.2 = effectiveParse p2 pc.2 := by
    unfold effectiveParse; rw [h]
  unfold pass1Step fullNameOf
  rw [he]

theorem pass1_foldl_congr (p1 p2 : String → Option String × List String) :
    ∀ (files : List (String × String)) (st : BuildState),
      (∀ pc ∈ files, p1 pc.2 = p2 pc.2) →
      files.foldl (pass1Step p1) st = files.foldl (pass1Step p2) st := by
  intro files
  induction files with
  | nil => intro st h; rfl
  | cons pc rest ih =>
    intro st h
    rw [List.foldl_cons, List.foldl_cons,
      pass1Step_congr p1 p2 st pc (h pc (List.mem_cons_self _ _))]
    exact ih _ (fun q hq => h q (List.mem_cons_of_mem _ hq))

/-- C9 counterexample: two runs on the same input mapping whose
primary parser reports, for every file, the same namespace and the
same import set — merely iterated in a different order, as Python's
hash-randomized set iteration may do across processes — produce
different output sequences.  The composition is therefore not a
function of the input mapping alone. -/
theorem c9_counterexample :
    (∀ c : String, (impOrder1 c).1 = (impOrder2 c).1 ∧
      ((impOrder1 c).2).Perm ((impOrder2 c).2)) ∧
    get_topological_sort (build_graph impOrder1 filesABC) ≠
      get_topological_sort (build_graph impOrder2 filesABC) := by
  constructor
  · intro c
    by_cases h : c = "cc"
    · have h1 : impOrder1 c = (some "p", ["p.A", "p.B"]) := by simp [impOrder1, h]
      have h2 : impOrder2 c = (some "p", ["p.B", "p.A"]) := by simp [impOrder2, h]
      rw [h1, h2]
      exact ⟨rfl, List.Perm.swap "p.B" "p.A" []⟩
    · have h1 : impOrder1 c = (some "p", []) := by simp [impOrder1, h]
      have h2 : impOrder2 c = (some "p", []) := by simp [impOrder2, h]
      rw [h1, h2]
      exact ⟨rfl, List.Perm.refl _⟩
  · decide

/-- C9 (amended): the composition of `build_graph` and
`get_topological_sort` is a deterministic function of the input
mapping (in its insertion order) together with the per-file parse
results in the order the parser yields each import set; two runs that
observe identical parse results on the input files produce identical
output sequences. -/
theorem c9_determinism_amended (p1 p2 : String → Option String × List String)
    (files : List (String × String)) (h : ∀ pc ∈ files, p1 pc.2 = p2 pc.2) :
    get_topological_sort (build_graph p1 files) =
      get_topological_sort (build_graph p2 files) := by
  have hb : build_graph p1 files = build_graph p2 files := by
    unfold build_graph pass1
    rw [pass1_foldl_congr p1 p2 files _ h]
  rw [hb]

/-- C9 witness: the amended statement at a parser differing only
outside the input's contents. -/
theorem c9_witness :
    get_topological_sort (build_graph impOrder1 filesABC) =
      get_topological_sort
        (build_graph (fun c => if c = "zz" then (none, []) else impOrder1 c) filesABC) :=
  c9_determinism_amended impOrder1
    (fun c => if c = "zz" then (none, []) else impOrder1 c) filesABC (by decide)

theorem lookupA_eq_none {β : Type} (m : List (String × β)) (k : String) :
    lookupA m k = none ↔ k ∉ m.map Prod.fst := by
  induction m with
  | nil => simp [lookupA]
  | cons ab t ih =>
    obtain ⟨a, b⟩ := ab
    by_cases h : a = k
    · simp [lookupA, h]
    · simp [lookupA, h, ih, Ne.symm h]

theorem lookupA_mem {β : Type} (m : List (String × β)) (k : String) (v : β)
    (h : lookupA m k = some v) : (k, v) ∈ m := by
  induction m with
  | nil => simp [lookupA] at h
  | cons ab t ih =>
    obtain ⟨a, b⟩ := ab
    by_cases hak : a = k
    · simp only [lookupA, if_pos hak] at h
      rw [Option.some_inj] at h
      rw [← h, ← hak]
      exact List.mem_cons_self _ _
    · simp only [lookupA, if_neg hak] at h
      exact List.mem_cons_of_mem _ (ih h)

theorem keys_eraseA_perm (m : List (String × Nat)) (c : String) (k : Nat)
    (h : lookupA m c = some k) : (m.map Prod.fst).Perm (c :: (eraseA m c).map Prod.fst) := by
  induction m with
  | nil => simp [lookupA] at h
  | cons ab t ih =>
    obtain ⟨a, b⟩ := ab
    by_cases hac : a = c
    · simp only [eraseA, if_pos hac, List.map_cons, hac]
      exact List.Perm.refl _
    · simp only [lookupA, if_neg hac] at h
      simp only [eraseA, if_neg hac, List.map_cons]
      exact ((ih h).cons a).trans (List.Perm.swap c a _)

theorem mem_eraseA (m : List (String × Nat)) (c : String) :
    ∀ kv ∈ eraseA m c, kv ∈ m := by
  induction m with
  | nil => intro kv h; simp [eraseA] at h
  | cons ab t ih =>
    intro kv h
    obtain ⟨a, b⟩ := ab
    by_cases hac : a = c
    · simp only [eraseA, if_pos hac] at h
      exact List.mem_cons_of_mem _ h
    · simp only [eraseA, if_neg hac] at h
      rcases List.mem_cons.mp h with h | h
      · exact h ▸ List.mem_cons_self _ _
      · exact List.mem_cons_of_mem _ (ih kv h)

theorem keys_setA (m : List (String × Nat)) (c : String) (n : Nat) :
    (setA m c n).map Prod.fst = m.map Prod.fst := by
  induction m with
  | nil => rfl
  | cons ab t ih =>
    obtain ⟨a, b⟩ := ab
    by_cases hac : a = c
    · simp [setA, if_pos hac, hac]
    · simp [setA, if_neg hac, ih]

theorem mem_setA (m : List (String × Nat)) (c : String) (n : Nat)
    (hnd : (m.map Prod.fst).Nodup) :
    ∀ kv ∈ setA m c n, (kv ∈ m ∧ kv.1 ≠ c) ∨ (kv = (c, n) ∧ c ∈ m.map Prod.fst) := by
  induction m with
  | nil => intro kv h; simp [setA] at h
  | cons ab t ih =>
    intro kv h
    obtain ⟨a, b⟩ := ab
    simp only [List.map_cons, List.nodup_cons] at hnd
    by_cases hac : a = c
    · simp only [setA, if_pos hac] at h
      rcases List.mem_cons.mp h with h | h
      · exact Or.inr ⟨h, by simp [hac]⟩
      · refine Or.inl ⟨List.mem_cons_of_mem _ h, ?_⟩
        intro hc
        apply hnd.1
        rw [hac]
        rw [← hc]
        exact List.mem_map_of_mem Prod.fst h
    · simp only [setA, if_neg hac] at h
      rcases List.mem_cons.mp h with h | h
      · exact Or.inl ⟨h ▸ List.mem_cons_self _ _, by simp [h, hac]⟩
      · rcases ih hnd.2 kv h with h2 | h2
        · exact Or.inl ⟨List.mem_cons_of_mem _ h2.1, h2.2⟩
        · exact Or.inr ⟨h2.1, List.mem_cons_of_mem _ h2.2⟩

theorem edges_addNode (g : DiGraph) (v : String) : (addNode g v).edges = g.edges := by
  unfold addNode; split <;> rfl

theorem nodes_addNode_nodup (g : DiGraph) (v : String) (h : g.nodes.Nodup) :
    (addNode g v).nodes.Nodup := by
  unfold addNode
  split
  · exact h
  · next hv =>
    rw [List.nodup_append]
    refine ⟨h, by simp, ?_⟩
    intro x hx hx2
    simp at hx2
    exact hv (hx2 ▸ hx)

theorem addNode_of_mem (g : DiGraph) (v : String) (h : v ∈ g.nodes) : addNode g v = g := by
  unfold addNode; exact if_pos h

theorem mem_edges_addEdge (g : DiGraph) (u v : String) (e : String × String) :
    e ∈ (addEdge g u v).edges ↔ e ∈ g.edges ∨ e = (u, v) := by
  unfold addEdge
  split
  · next h =>
    rw [edges_addNode, edges_addNode] at h ⊢
    constructor
    · exact Or.inl
    · rintro (h2 | rfl)
      · exact h2
      · exact h
  · next h =>
    show e ∈ (addNode (addNode g u) v).edges ++ [(u, v)] ↔ _
    rw [edges_addNode, edges_addNode]
    simp [List.mem_append]

theorem edges_addEdge_nodup (g : DiGraph) (u v : String) (h : g.edges.Nodup) :
    (addEdge g u v).edges.Nodup := by
  unfold addEdge
  split
  · next h2 => rw [edges_addNode, edges_addNode]; exact h
  · next h2 =>
    show ((addNode (addNode g u) v).edges ++ [(u, v)]).Nodup
    rw [edges_addNode, edges_addNode] at h2 ⊢
    rw [List.nodup_append]
    refine ⟨h, by simp, ?_⟩
    intro x hx hx2
    simp at hx2
    exact h2 (hx2 ▸ hx)

theorem nodes_addEdge (g : DiGraph) (u v : String) (hu : u ∈ g.nodes) (hv : v ∈ g.nodes) :
    (addEdge g u v).nodes = g.nodes := by
  unfold addEdge
  rw [addNode_of_mem g u hu, addNode_of_mem g v hv]
  split <;> rfl

theorem mem_adjOf (g : DiGraph) (u c : String) :
    c ∈ adjOf g u ↔ (u, c) ∈ g.edges := by
  unfold adjOf
  constructor
  · intro h
    rcases List.mem_map.mp h with ⟨e, he, hec⟩
    have h2 := List.mem_filter.mp he
    have h3 : e.1 = u := of_decide_eq_true h2.2
    have : e = (u, c) := by
      rw [← h3, ← hec]
    exact this ▸ h2.1
  · intro h
    apply List.mem_map.mpr
    refine ⟨(u, c), List.mem_filter.mpr ⟨h, by simp⟩, rfl⟩

theorem adjOf_nodup (g : DiGraph) (u : String) (hE : g.edges.Nodup) :
    (adjOf g u).Nodup := by
  unfold adjOf
  apply List.Nodup.map_on
  · intro x hx y hy hxy
    have hx1 : x.1 = u := of_decide_eq_true (List.mem_filter.mp hx).2
    have hy1 : y.1 = u := of_decide_eq_true (List.mem_filter.mp hy).2
    have : x.1 = y.1 := hx1.trans hy1.symm
    exact Prod.ext this hxy
  · exact hE.filter _

theorem tcount_nil_eq (E : List (String × String)) (v : String) :
    tcount E [] v = E.countP (fun e => decide (e.2 = v)) := by
  unfold tcount
  congr 1
  funext e
  simp

theorem tcount_cons (E : List (String × String)) (D : List String) (u v : String)
    (hE : E.Nodup) (hu : u ∉ D) :
    tcount E D v = tcount E (u :: D) v + (if (u, v) ∈ E then 1 else 0) := by
  induction E with
  | nil => simp [tcount]
  | cons e E' ih =>
    rw [List.nodup_cons] at hE
    unfold tcount at ih ⊢
    rw [List.countP_cons, List.countP_cons]
    by_cases hev : e = (u, v)
    · subst hev
      rw [if_pos (List.mem_cons_self _ _)]
      have ihh := ih hE.2
      rw [if_neg hE.1] at ihh
      have hp1 : (decide (((u, v) : String × String).2 = v) &&
          !decide (((u, v) : String × String).1 ∈ D)) = true := by simp [hu]
      have hp2 : (decide (((u, v) : String × String).2 = v) &&
          !decide (((u, v) : String × String).1 ∈ u :: D)) = false := by simp
      rw [hp1, hp2]
      simp only [if_true, Bool.false_eq_true, if_false]
      omega
    · have hpe : (decide (e.2 = v) && !decide (e.1 ∈ D)) =
          (decide (e.2 = v) && !decide (e.1 ∈ u :: D)) := by
        by_cases h2 : e.2 = v
        · by_cases h1 : e.1 = u
          · exact absurd (Prod.ext h1 h2) hev
          · simp [h2, List.mem_cons, h1]
        · simp [h2]
      have hmem : ((u, v) ∈ e :: E') ↔ ((u, v) ∈ E') := by
        rw [List.mem_cons]
        constructor
        · rintro (h | h)
          · exact absurd h.symm hev
          · exact h
        · exact Or.inr
      rw [hpe, ih hE.2]
      by_cases h3 : (u, v) ∈ E'
      · rw [if_pos h3, if_pos (hmem.mpr h3)]
        omega
      · rw [if_neg h3, if_neg (fun hh => h3 (hmem.mp hh))]
        omega

theorem eraseA_len (m : List (String × Nat)) (c : String) (k : Nat)
    (h : lookupA m c = some k) : (eraseA m c).length + 1 = m.length := by
  induction m with
  | nil => simp [lookupA] at h
  | cons ab t ih =>
    obtain ⟨a, b⟩ := ab
    by_cases hac : a = c
    · simp [eraseA, if_pos hac]
    · simp only [lookupA, if_neg hac] at h
      simp [eraseA, if_neg hac, ← ih h]

theorem setA_len (m : List (String × Nat)) (c : String) (n : Nat) :
    (setA m c n).length = m.length := by
  induction m with
  | nil => rfl
  | cons ab t ih =>
    obtain ⟨a, b⟩ := ab
    by_cases hac : a = c
    · simp [setA, if_pos hac]
    · simp [setA, if_neg hac, ih]

theorem decChildren_cons_none (m : List (String × Nat)) (q : List String)
    (c : String) (cs : List String) (h : lookupA m c = none) :
    decChildren m q (c :: cs) = decChildren m q cs := by
  simp only [decChildren, h]

theorem decChildren_cons_some (m : List (String × Nat)) (q : List String)
    (c : String) (cs : List String) (k : Nat) (h : lookupA m c = some k) :
    decChildren m q (c :: cs) =
      if k = 1 then decChildren (eraseA m c) (q ++ [c]) cs
      else decChildren (setA m c (k - 1)) q cs := by
  simp only [decChildren, h]

theorem decChildren_len : ∀ (cs : List String) (m : List (String × Nat)) (q : List String),
    ((decChildren m q cs).1).length + ((decChildren m q cs).2).length
      = m.length + q.length := by
  intro cs
  induction cs with
  | nil => intro m q; rfl
  | cons c cs ih =>
    intro m q
    cases hl : lookupA m c with
    | none => rw [decChildren_cons_none m q c cs hl]; exact ih m q
    | some k =>
      rw [decChildren_cons_some m q c cs k hl]
      by_cases hk : k = 1
      · rw [if_pos hk, ih]
        have he := eraseA_len m c k hl
        simp only [List.length_append, List.length_cons, List.length_nil]
        omega
      · rw [if_neg hk, ih, setA_len]

theorem decChildren_perm : ∀ (cs : List String) (m : List (String × Nat)) (q : List String),
    ((decChildren m q cs).2 ++ ((decChildren m q cs).1).map Prod.fst).Perm
      (q ++ m.map Prod.fst) := by
  intro cs
  induction cs with
  | nil => intro m q; exact List.Perm.refl _
  | cons c cs ih =>
    intro m q
    cases hl : lookupA m c with
    | none => rw [decChildren_cons_none m q c cs hl]; exact ih m q
    | some k =>
      rw [decChildren_cons_some m q c cs k hl]
      by_cases hk : k = 1
      · rw [if_pos hk]
        refine (ih _ _).trans ?_
        rw [List.append_assoc]
        exact List.Perm.append_left q (keys_eraseA_perm m c k hl).symm
      · rw [if_neg hk]
        refine (ih _ _).trans ?_
        rw [keys_setA]

theorem minv_decChildren (N : List String) (E : List (String × String)) (u : String) :
    ∀ (cs : List String) (D q : List String) (m : List (String × Nat)),
      MInv N E u D q m cs →
      MInv N E u D (decChildren m q cs).2 (decChildren m q cs).1 [] := by
  intro cs
  induction cs with
  | nil => intro D q m h; exact h
  | cons c cs ih =>
    intro D q m h
    have hcE : (u, c) ∈ E := h.csE c (List.mem_cons_self _ _)
    have hcs' : c ∉ cs := (List.nodup_cons.mp h.csnodup).1
    have hcsnd : cs.Nodup := (List.nodup_cons.mp h.csnodup).2
    cases hl : lookupA m c with
    | none =>
      rw [decChildren_cons_none m q c cs hl]
      apply ih
      have hckeys : c ∉ m.map Prod.fst := (lookupA_eq_none m c).mp hl
      exact { h with
        csE := fun d hd => h.csE d (List.mem_cons_of_mem _ hd)
        csnodup := hcsnd
        count := by
          intro v k hvk
          have hv := h.count v k hvk
          have hvc : v ≠ c := by
            intro hvc
            exact hckeys (hvc ▸ List.mem_map_of_mem Prod.fst hvk)
          refine ⟨hv.1, ?_⟩
          rw [hv.2]
          congr 1
          by_cases hvcs : v ∈ cs
          · rw [if_pos hvcs, if_pos (List.mem_cons_of_mem _ hvcs)]
          · rw [if_neg hvcs, if_neg ?_]
            rw [List.mem_cons]
            rintro (h3 | h3)
            · exact hvc h3
            · exact hvcs h3 }
    | some k =>
      have hker : (c, k) ∈ m := lookupA_mem m c k hl
      have hcount := h.count c k hker
      have hcmem : c ∈ m.map Prod.fst := List.mem_map_of_mem Prod.fst hker
      have hkeq : k = tcount E (u :: D) c + 1 := by
        have h2 := hcount.2
        rw [if_pos (List.mem_cons_self _ _)] at h2
        exact h2
      rw [decChildren_cons_some m q c cs k hl]
      by_cases hk : k = 1
      · rw [if_pos hk]
        apply ih
        have htc : tcount E (u :: D) c = 0 := by omega
        have hready_c : ∀ w, (w, c) ∈ E → w ∈ u :: D := by
          intro w hw
          by_contra hwD
          have hpos : 0 < tcount E (u :: D) c := by
            unfold tcount
            rw [List.countP_pos_iff]
            exact ⟨(w, c), hw, by simp [hwD]⟩
          omega
        have hperm := keys_eraseA_perm m c k hl
        have hnde : (c :: (eraseA m c).map Prod.fst).Nodup := hperm.nodup h.mnodup
        have hcne : c ∉ (eraseA m c).map Prod.fst := (List.nodup_cons.mp hnde).1
        have hnd' : ((eraseA m c).map Prod.fst).Nodup := (List.nodup_cons.mp hnde).2
        have hsubK : ∀ x ∈ (eraseA m c).map Prod.fst, x ∈ m.map Prod.fst := by
          intro x hx
          exact hperm.mem_iff.mpr (List.mem_cons_of_mem _ hx)
        refine {
          dnodup := h.dnodup
          qnodup := ?_
          mnodup := hnd'
          dq := ?_
          dm := fun x hx hx2 => h.dm x hx (hsubK x hx2)
          qm := ?_
          cover := ?_
          dsub := h.dsub
          qsub := ?_
          msub := fun x hx => h.msub x (hsubK x hx)
          csE := fun d hd => h.csE d (List.mem_cons_of_mem _ hd)
          csnodup := hcsnd
          count := ?_
          ready := ?_ }
        · rw [List.nodup_append]
          refine ⟨h.qnodup, by simp, ?_⟩
          intro x hx hx2
          simp at hx2
          exact h.qm x hx (hx2 ▸ hcmem)
        · intro x hx
          rw [List.mem_append]
          rintro (h2 | h2)
          · exact h.dq x hx h2
          · simp at h2
            exact h.dm x hx (h2 ▸ hcmem)
        · intro x hx
          rcases List.mem_append.mp hx with h2 | h2
          · exact fun h3 => h.qm x h2 (hsubK x h3)
          · simp at h2
            exact h2 ▸ hcne
        · intro x hxN
          rcases h.cover x hxN with h2 | h2 | h2
          · exact Or.inl h2
          · exact Or.inr (Or.inl (List.mem_append.mpr (Or.inl h2)))
          · by_cases hxc : x = c
            · exact Or.inr (Or.inl (List.mem_append.mpr (Or.inr (by simp [hxc]))))
            · have h4 := hperm.mem_iff.mp h2
              rcases List.mem_cons.mp h4 with h5 | h5
              · exact absurd h5 hxc
              · exact Or.inr (Or.inr h5)
        · intro x hx
          rcases List.mem_append.mp hx with h2 | h2
          · exact h.qsub x h2
          · simp at h2
            exact h2 ▸ h.msub c hcmem
        · intro v k' hvk
          have hvm : (v, k') ∈ m := mem_eraseA m c _ hvk
          have hv := h.count v k' hvm
          have hvc : v ≠ c := by
            intro he
            exact hcne (he ▸ List.mem_map_of_mem Prod.fst hvk)
          refine ⟨hv.1, ?_⟩
          rw [hv.2]
          congr 1
          by_cases hvcs : v ∈ cs
          · rw [if_pos hvcs, if_pos (List.mem_cons_of_mem _ hvcs)]
          · rw [if_neg hvcs, if_neg ?_]
            rw [List.mem_cons]
            rintro (h3 | h3)
            · exact hvc h3
            · exact hvcs h3
        · intro v hv w hw
          rcases List.mem_append.mp hv with h2 | h2
          · exact h.ready v h2 w hw
          · simp at h2
            exact hready_c w (h2 ▸ hw)
      · rw [if_neg hk]
        apply ih
        refine {
          dnodup := h.dnodup
          qnodup := h.qnodup
          mnodup := by rw [keys_setA]; exact h.mnodup
          dq := h.dq
          dm := fun x hx => by rw [keys_setA]; exact h.dm x hx
          qm := fun x hx => by rw [keys_setA]; exact h.qm x hx
          cover := fun x hx => by rw [keys_setA]; exact h.cover x hx
          dsub := h.dsub
          qsub := h.qsub
          msub := fun x hx => h.msub x (by rw [keys_setA] at hx; exact hx)
          csE := fun d hd => h.csE d (List.mem_cons_of_mem _ hd)
          csnodup := hcsnd
          count := ?_
          ready := h.ready }
        intro v k' hvk
        rcases mem_setA m c (k - 1) h.mnodup _ hvk with ⟨hvm, hvc⟩ | ⟨hveq, _⟩
        · have hv := h.count v k' hvm
          refine ⟨hv.1, ?_⟩
          rw [hv.2]
          congr 1
          by_cases hvcs : v ∈ cs
          · rw [if_pos hvcs, if_pos (List.mem_cons_of_mem _ hvcs)]
          · rw [if_neg hvcs, if_neg ?_]
            rw [List.mem_cons]
            rintro (h3 | h3)
            · exact hvc h3
            · exact hvcs h3
        · rw [Prod.mk.injEq] at hveq
          obtain ⟨hv1, hv2⟩ := hveq
          subst hv1
          subst hv2
          rw [if_neg hcs']
          constructor
          · omega
          · omega

theorem kinv_to_minv (N : List String) (E : List (String × String)) (u : String)
    (rest : List String) (m : List (String × Nat)) (D : List String)
    (hE : E.Nodup) (hKI : KInv N E D (u :: rest) m) (cs : List String)
    (hcs : ∀ v, (u, v) ∈ E ↔ v ∈ cs) (hcsnd : cs.Nodup) :
    MInv N E u D rest m cs := by
  have huq : u ∉ D := fun hD => hKI.dq u hD (List.mem_cons_self _ _)
  have hurest : u ∉ rest := (List.nodup_cons.mp hKI.qnodup).1
  have hum : u ∉ m.map Prod.fst := hKI.qm u (List.mem_cons_self _ _)
  refine {
    dnodup := List.nodup_cons.mpr ⟨huq, hKI.dnodup⟩
    qnodup := (List.nodup_cons.mp hKI.qnodup).2
    mnodup := hKI.mnodup
    dq := ?_
    dm := ?_
    qm := fun x hx => hKI.qm x (List.mem_cons_of_mem _ hx)
    cover := ?_
    dsub := ?_
    qsub := fun x hx => hKI.qsub x (List.mem_cons_of_mem _ hx)
    msub := hKI.msub
    csE := fun c hc => (hcs c).mpr hc
    csnodup := hcsnd
    count := ?_
    ready := ?_ }
  · intro x hx
    rcases List.mem_cons.mp hx with h | h
    · exact h ▸ hurest
    · exact fun h2 => hKI.dq x h (List.mem_cons_of_mem _ h2)
  · intro x hx
    rcases List.mem_cons.mp hx with h | h
    · exact h ▸ hum
    · exact hKI.dm x h
  · intro x hxN
    rcases hKI.cover x hxN with h | h | h
    · exact Or.inl (List.mem_cons_of_mem _ h)
    · rcases List.mem_cons.mp h with h2 | h2
      · exact Or.inl (h2 ▸ List.mem_cons_self _ _)
      · exact Or.inr (Or.inl h2)
    · exact Or.inr (Or.inr h)
  · intro x hx
    rcases List.mem_cons.mp hx with h | h
    · exact h ▸ hKI.qsub u (List.mem_cons_self _ _)
    · exact hKI.dsub x h
  · intro v k hvk
    have hv := hKI.count v k hvk
    refine ⟨hv.1, ?_⟩
    rw [hv.2, tcount_cons E D u v hE huq]
    congr 1
    by_cases h : (u, v) ∈ E
    · rw [if_pos h, if_pos ((hcs v).mp h)]
    · rw [if_neg h, if_neg (fun h2 => h ((hcs v).mpr h2))]
  · intro v hv w hw
    exact List.mem_cons_of_mem _ (hKI.ready v (List.mem_cons_of_mem _ hv) w hw)

theorem minv_to_kinv (N : List String) (E : List (String × String)) (u : String)
    (D q : List String) (m : List (String × Nat)) (h : MInv N E u D q m []) :
    KInv N E (u :: D) q m := {
  dnodup := h.dnodup
  qnodup := h.qnodup
  mnodup := h.mnodup
  dq := h.dq
  dm := h.dm
  qm := h.qm
  cover := h.cover
  dsub := h.dsub
  qsub := h.qsub
  msub := h.msub
  count := fun v k hvk => by
    have hv := h.count v k hvk
    refine ⟨hv.1, ?_⟩
    rw [hv.2]
    simp
  ready := h.ready }

theorem kahn_step (g : DiGraph) (hWF : GraphWF g) (u : String) (rest : List String)
    (m : List (String × Nat)) (D : List String)
    (hKI : KInv g.nodes g.edges D (u :: rest) m) :
    KInv g.nodes g.edges (u :: D)
      (decChildren m rest (adjOf g u)).2 (decChildren m rest (adjOf g u)).1 :=
  minv_to_kinv _ _ _ _ _ _
    (minv_decChildren g.nodes g.edges u (adjOf g u) D rest m
      (kinv_to_minv g.nodes g.edges u rest m D hWF.edgesN hKI (adjOf g u)
        (fun v => (mem_adjOf g u v).symm) (adjOf_nodup g u hWF.edgesN)))

theorem kahnAux_cons_fst (adj : String → List String) (fuel : Nat) (u : String)
    (rest : List String) (m : List (String × Nat)) :
    (kahnAux adj (fuel + 1) (u :: rest) m).1 =
      u :: (kahnAux adj fuel (decChildren m rest (adj u)).2
              (decChildren m rest (adj u)).1).1 := rfl

theorem kahnAux_cons_snd (adj : String → List String) (fuel : Nat) (u : String)
    (rest : List String) (m : List (String × Nat)) :
    (kahnAux adj (fuel + 1) (u :: rest) m).2 =
      (kahnAux adj fuel (decChildren m rest (adj u)).2
              (decChildren m rest (adj u)).1).2 := rfl

theorem kahn_conserve (adj : String → List String) :
    ∀ (fuel : Nat) (q : List String) (m : List (String × Nat)),
      q.length + m.length ≤ fuel →
      ((kahnAux adj fuel q m).1 ++ ((kahnAux adj fuel q m).2).map Prod.fst).Perm
        (q ++ m.map Prod.fst) := by
  intro fuel
  induction fuel with
  | zero =>
    intro q m hf
    have hq : q = [] := by
      cases q with
      | nil => rfl
      | cons a t => simp at hf
    subst hq
    exact List.Perm.refl _
  | succ fuel ih =>
    intro q m hf
    cases q with
    | nil => exact List.Perm.refl _
    | cons u rest =>
      have hlen := decChildren_len (adj u) m rest
      have hf2 : (decChildren m rest (adj u)).2.length
          + (decChildren m rest (adj u)).1.length ≤ fuel := by
        simp only [List.length_cons] at hf
        omega
      have hperm := ih (decChildren m rest (adj u)).2 (decChildren m rest (adj u)).1 hf2
      have hd := decChildren_perm (adj u) m rest
      rw [kahnAux_cons_fst, kahnAux_cons_snd]
      exact ((hperm.trans hd).cons u)

theorem kahn_respect (g : DiGraph) (hWF : GraphWF g) :
    ∀ (fuel : Nat) (q : List String) (m : List (String × Nat)) (D : List String),
      KInv g.nodes g.edges D q m → q.length + m.length ≤ fuel →
      ∀ u v, (u, v) ∈ g.edges →
        v ∈ (kahnAux (adjOf g) fuel q m).1 →
        u ∈ D ∨ ∃ l₁ l₂ l₃, (kahnAux (adjOf g) fuel q m).1 = l₁ ++ u :: l₂ ++ v :: l₃ := by
  intro fuel
  induction fuel with
  | zero =>
    intro q m D hKI hf u v he hv
    have hq : q = [] := by
      cases q with
      | nil => rfl
      | cons a t => simp at hf
    subst hq
    simp [kahnAux] at hv
  | succ fuel ih =>
    intro q m D hKI hf u v he hv
    cases q with
    | nil => simp [kahnAux] at hv
    | cons u0 rest =>
      have hf2 : (decChildren m rest (adjOf g u0)).2.length
          + (decChildren m rest (adjOf g u0)).1.length ≤ fuel := by
        have hlen := decChildren_len (adjOf g u0) m rest
        simp only [List.length_cons] at hf
        omega
      rw [kahnAux_cons_fst] at hv ⊢
      rcases List.mem_cons.mp hv with hveq | hvtl
      · exact Or.inl (hKI.ready u0 (List.mem_cons_self _ _) u (hveq ▸ he))
      · have hKI' := kahn_step g hWF u0 rest m D hKI
        rcases ih _ _ _ hKI' hf2 u v he hvtl with hD | ⟨l₁, l₂, l₃, hsplit⟩
        · rcases List.mem_cons.mp hD with h2 | h2
          · right
            obtain ⟨s, t, hst⟩ := List.append_of_mem hvtl
            refine ⟨[], s, t, ?_⟩
            rw [hst, h2]
            rfl
          · exact Or.inl h2
        · right
          refine ⟨u0 :: l₁, l₂, l₃, ?_⟩
          rw [hsplit]
          simp

theorem walkF_spec (E : List (String × String)) (S : List String)
    (hpred : ∀ v ∈ S, ∃ w ∈ S, (w, v) ∈ E) :
    ∀ v ∈ S, walkF E S v ∈ S ∧ (walkF E S v, v) ∈ E := by
  intro v hv
  obtain ⟨w, hwS, hwE⟩ := hpred v hv
  cases hf : S.find? (fun u => decide ((u, v) ∈ E)) with
  | none =>
    rw [List.find?_eq_none] at hf
    exact absurd hwE (by have := hf w hwS; simpa using this)
  | some w0 =>
    unfold walkF
    rw [hf]
    simp only [Option.getD_some]
    refine ⟨List.mem_of_find?_eq_some hf, ?_⟩
    have hp := List.find?_some hf
    simpa using hp

theorem walk_mem (E : List (String × String)) (S : List String) (v0 : String)
    (hpred : ∀ v ∈ S, ∃ w ∈ S, (w, v) ∈ E) (hv0 : v0 ∈ S) :
    ∀ n, walk E S v0 n ∈ S := by
  intro n
  induction n with
  | zero => exact hv0
  | succ n ih => exact (walkF_spec E S hpred _ ih).1

theorem walk_edge (E : List (String × String)) (S : List String) (v0 : String)
    (hpred : ∀ v ∈ S, ∃ w ∈ S, (w, v) ∈ E) (hv0 : v0 ∈ S) :
    ∀ n, (walk E S v0 (n + 1), walk E S v0 n) ∈ E :=
  fun n => (walkF_spec E S hpred _ (walk_mem E S v0 hpred hv0 n)).2

theorem walkChain_head (E : List (String × String)) (S : List String) (v0 : String)
    (i : Nat) : ∀ k, ∃ t, walkChain E S v0 i k = walk E S v0 (i + k) :: t := by
  intro k
  cases k with
  | zero => exact ⟨[], rfl⟩
  | succ k => exact ⟨walkChain E S v0 i k, rfl⟩

theorem walkChain_last (E : List (String × String)) (S : List String) (v0 : String)
    (i : Nat) : ∀ (k : Nat) (d : String),
      (walkChain E S v0 i k).getLastD d = walk E S v0 i := by
  intro k
  induction k with
  | zero => intro d; rfl
  | succ k ih =>
    intro d
    show (walk E S v0 (i + k + 1) :: walkChain E S v0 i k).getLastD d = _
    rw [List.getLastD_cons]
    exact ih _

theorem walkChain_chain (E : List (String × String)) (S : List String) (v0 : String)
    (hpred : ∀ v ∈ S, ∃ w ∈ S, (w, v) ∈ E) (hv0 : v0 ∈ S) (i : Nat) :
    ∀ k, chainB E (walk E S v0 (i + k + 1)) (walkChain E S v0 i k) = true := by
  intro k
  induction k with
  | zero =>
    show chainB E (walk E S v0 (i + 1)) [walk E S v0 i] = true
    simp [chainB, walk_edge E S v0 hpred hv0 i]
  | succ k ih =>
    show chainB E (walk E S v0 (i + k + 2))
      (walk E S v0 (i + k + 1) :: walkChain E S v0 i k) = true
    simp only [chainB, Bool.and_eq_true]
    exact ⟨by simp [walk_edge E S v0 hpred hv0 (i + k + 1)], ih⟩

theorem cycle_of_walk_eq (E : List (String × String)) (S : List String) (v0 : String)
    (hpred : ∀ v ∈ S, ∃ w ∈ S, (w, v) ∈ E) (hv0 : v0 ∈ S) (i j : Nat)
    (hij : i < j) (heq : walk E S v0 i = walk E S v0 j) :
    ∃ l, isCycle E l = true := by
  obtain ⟨d, hd⟩ : ∃ d, j = i + d + 1 := ⟨j - i - 1, by omega⟩
  refine ⟨walk E S v0 (i + d + 1) :: walkChain E S v0 i d, ?_⟩
  have h1 : (walkChain E S v0 i d).isEmpty = false := by
    obtain ⟨t, ht⟩ := walkChain_head E S v0 i d
    rw [ht]
    rfl
  have h2 : chainB E (walk E S v0 (i + d + 1)) (walkChain E S v0 i d) = true :=
    walkChain_chain E S v0 hpred hv0 i d
  have h3 : (walkChain E S v0 i d).getLastD (walk E S v0 (i + d + 1))
      = walk E S v0 (i + d + 1) := by
    rw [walkChain_last, ← hd, heq]
  show (!(walkChain E S v0 i d).isEmpty
      && chainB E (walk E S v0 (i + d + 1)) (walkChain E S v0 i d)
      && decide ((walkChain E S v0 i d).getLastD (walk E S v0 (i + d + 1))
          = walk E S v0 (i + d + 1))) = true
  rw [h1, h2]
  simp only [Bool.not_false, Bool.and_true, Bool.true_and]
  exact decide_eq_true h3

theorem cycle_of_preds (E : List (String × String)) (S : List String)
    (hS : S ≠ []) (hpred : ∀ v ∈ S, ∃ w ∈ S, (w, v) ∈ E) :
    ∃ l, isCycle E l = true := by
  obtain ⟨v0, hv0⟩ := List.exists_mem_of_ne_nil S hS
  have hmaps : ∀ n ∈ Finset.range (S.length + 1), walk E S v0 n ∈ S.toFinset := by
    intro n _
    exact List.mem_toFinset.mpr (walk_mem E S v0 hpred hv0 n)
  have hcard : S.toFinset.card < (Finset.range (S.length + 1)).card := by
    rw [Finset.card_range]
    exact Nat.lt_succ_of_le (List.toFinset_card_le S)
  obtain ⟨a, ha, b, hb, hab, heq⟩ :=
    Finset.exists_ne_map_eq_of_card_lt_of_maps_to hcard hmaps
  rcases Nat.lt_or_ge a b with hlt | hge
  · exact cycle_of_walk_eq E S v0 hpred hv0 a b hlt heq
  · have hlt2 : b < a := by omega
    exact cycle_of_walk_eq E S v0 hpred hv0 b a hlt2 heq.symm

theorem kinv_end (g : DiGraph) (hWF : GraphWF g) (D : List String)
    (m : List (String × Nat)) (hKI : KInv g.nodes g.edges D [] m) (hm : m ≠ []) :
    ∃ l, isCycle g.edges l = true := by
  have hS : m.map Prod.fst ≠ [] := by
    cases m with
    | nil => exact absurd rfl hm
    | cons a t => simp
  apply cycle_of_preds g.edges (m.map Prod.fst) hS
  intro v hv
  rcases List.mem_map.mp hv with ⟨⟨v1, k⟩, hvk, hfst⟩
  have hv1 : v1 = v := hfst
  rw [hv1] at hvk
  have hc := hKI.count v k hvk
  have hpos : 0 < tcount g.edges D v := by
    have h2 := hc.1
    rw [hc.2] at h2
    exact h2
  unfold tcount at hpos
  rw [List.countP_pos_iff] at hpos
  obtain ⟨e, heE, hep⟩ := hpos
  simp only [Bool.and_eq_true, decide_eq_true_eq, Bool.not_eq_true',
    decide_eq_false_iff_not] at hep
  have heN : e.1 ∈ g.nodes := (hWF.ends e heE).1
  rcases hKI.cover e.1 heN with h | h | h
  · exact absurd h hep.2
  · simp at h
  · refine ⟨e.1, h, ?_⟩
    have he : (e.1, v) = e := Prod.ext rfl hep.1.symm
    rw [he]
    exact heE

theorem kahn_leftover_cycle (g : DiGraph) (hWF : GraphWF g) :
    ∀ (fuel : Nat) (q : List String) (m : List (String × Nat)) (D : List String),
      KInv g.nodes g.edges D q m → q.length + m.length ≤ fuel →
      (kahnAux (adjOf g) fuel q m).2 ≠ [] →
      ∃ l, isCycle g.edges l = true := by
  intro fuel
  induction fuel with
  | zero =>
    intro q m D hKI hf hne
    have hq : q = [] := by
      cases q with
      | nil => rfl
      | cons a t => simp at hf
    subst hq
    exact kinv_end g hWF D m hKI hne
  | succ fuel ih =>
    intro q m D hKI hf hne
    cases q with
    | nil => exact kinv_end g hWF D m hKI hne
    | cons u0 rest =>
      have hf2 : (decChildren m rest (adjOf g u0)).2.length
          + (decChildren m rest (adjOf g u0)).1.length ≤ fuel := by
        have hlen := decChildren_len (adjOf g u0) m rest
        simp only [List.length_cons] at hf
        omega
      exact ih _ _ _ (kahn_step g hWF u0 rest m D hKI) hf2 hne

theorem pass1_foldl_edges (parse : String → Option String × List String) :
    ∀ (files : List (String × String)) (st : BuildState),
      (files.foldl (pass1Step parse) st).graph.edges = st.graph.edges := by
  intro files
  induction files with
  | nil => intro st; rfl
  | cons pc rest ih =>
    intro st
    rw [List.foldl_cons, ih]
    by_cases hj : pyEndsWith pc.1 ".java" = true
    · rw [pass1Step_java parse st pc hj]
      exact edges_addNode _ _
    · rw [pass1Step_skip parse st pc hj]

theorem pass1_foldl_nodes_nodup (parse : String → Option String × List String) :
    ∀ (files : List (String × String)) (st : BuildState),
      st.graph.nodes.Nodup → (files.foldl (pass1Step parse) st).graph.nodes.Nodup := by
  intro files
  induction files with
  | nil => intro st h; exact h
  | cons pc rest ih =>
    intro st h
    rw [List.foldl_cons]
    apply ih
    by_cases hj : pyEndsWith pc.1 ".java" = true
    · rw [pass1Step_java parse st pc hj]
      exact nodes_addNode_nodup _ _ h
    · rw [pass1Step_skip parse st pc hj]; exact h

theorem pass1_foldl_nodes_formula (parse : String → Option String × List String) :
    ∀ (files : List (String × String)) (st : BuildState),
      (∀ pc ∈ files, pc.1 ∉ st.graph.nodes) → (files.map Prod.fst).Nodup →
      (files.foldl (pass1Step parse) st).graph.nodes
        = st.graph.nodes ++ (files.map Prod.fst).filter (fun p => pyEndsWith p ".java") := by
  intro files
  induction files with
  | nil => intro st hfresh hnd; simp
  | cons pc rest ih =>
    intro st hfresh hnd
    simp only [List.map_cons, List.nodup_cons] at hnd
    rw [List.foldl_cons]
    by_cases hj : pyEndsWith pc.1 ".java" = true
    · rw [pass1Step_java parse st pc hj]
      have hstep : (addNode st.graph pc.1).nodes = st.graph.nodes ++ [pc.1] := by
        unfold addNode
        rw [if_neg (hfresh pc (List.mem_cons_self _ _))]
      rw [ih _ ?_ hnd.2]
      · show ({ class_to_file := _, file_imports := _, graph := addNode st.graph pc.1 }
            : BuildState).graph.nodes ++ _ = _
        rw [hstep, List.map_cons, List.filter_cons]
        simp only [hj, if_true, List.append_assoc, List.singleton_append]
      · intro q hq
        show q.1 ∉ (addNode st.graph pc.1).nodes
        rw [hstep, List.mem_append]
        rintro (h2 | h2)
        · exact hfresh q (List.mem_cons_of_mem _ hq) h2
        · simp at h2
          exact hnd.1 (h2 ▸ List.mem_map_of_mem Prod.fst hq)
    · rw [pass1Step_skip parse st pc hj]
      rw [ih st (fun q hq => hfresh q (List.mem_cons_of_mem _ hq)) hnd.2]
      rw [List.map_cons, List.filter_cons]
      simp only [hj, Bool.false_eq_true, if_false]

theorem fim_foldl_mem (parse : String → Option String × List String) :
    ∀ (files : List (String × String)) (st : BuildState) (fi : String × List String),
      fi ∈ (files.foldl (pass1Step parse) st).file_imports →
      fi ∈ st.file_imports ∨ ∃ pc, pc ∈ files ∧ pyEndsWith pc.1 ".java" = true ∧ fi.1 = pc.1 := by
  intro files
  induction files with
  | nil => intro st fi h; exact Or.inl h
  | cons pc rest ih =>
    intro st fi h
    rw [List.foldl_cons] at h
    rcases ih _ fi h with h2 | h2
    · by_cases hj : pyEndsWith pc.1 ".java" = true
      · rw [pass1Step_java parse st pc hj] at h2
        rcases List.mem_append.mp h2 with h3 | h3
        · exact Or.inl h3
        · simp at h3
          exact Or.inr ⟨pc, List.mem_cons_self _ _, hj, by rw [h3]⟩
      · rw [pass1Step_skip parse st pc hj] at h2
        exact Or.inl h2
    · obtain ⟨q, hq, hqj, hfi⟩ := h2
      exact Or.inr ⟨q, List.mem_cons_of_mem _ hq, hqj, hfi⟩

theorem pass1_ctf_vals_in_nodes (parse : String → Option String × List String)
    (files : List (String × String)) :
    ∀ kv ∈ (pass1 parse files).class_to_file, kv.2 ∈ (pass1 parse files).graph.nodes := by
  intro kv h
  rcases ctf_foldl_mem parse files _ kv h with h2 | h2
  · simp at h2
  · obtain ⟨pc, hmem, hj, hkv⟩ := h2
    have : kv.2 = pc.1 := by rw [hkv]
    rw [this]
    exact mem_nodes_foldl parse files _ pc hmem hj

theorem pass1_fim_keys_in_nodes (parse : String → Option String × List String)
    (files : List (String × String)) :
    ∀ fi ∈ (pass1 parse files).file_imports, fi.1 ∈ (pass1 parse files).graph.nodes := by
  intro fi h
  rcases fim_foldl_mem parse files _ fi h with h2 | h2
  · simp at h2
  · obtain ⟨pc, hmem, hj, hfi⟩ := h2
    rw [hfi]
    exact mem_nodes_foldl parse files _ pc hmem hj

theorem addImportEdges_wf : ∀ (imps : List String) (ctf : List (String × String))
    (g : DiGraph) (fp : String), fp ∈ g.nodes → (∀ kv ∈ ctf, kv.2 ∈ g.nodes) →
    (∀ e ∈ g.edges, e.1 ∈ g.nodes ∧ e.2 ∈ g.nodes) → g.edges.Nodup →
    (addImportEdges ctf g fp imps).nodes = g.nodes ∧
    (∀ e ∈ (addImportEdges ctf g fp imps).edges, e.1 ∈ g.nodes ∧ e.2 ∈ g.nodes) ∧
    (addImportEdges ctf g fp imps).edges.Nodup := by
  intro imps
  induction imps with
  | nil => intro ctf g fp hfp hctf hends hnd; exact ⟨rfl, hends, hnd⟩
  | cons imp rest ih =>
    intro ctf g fp hfp hctf hends hnd
    rw [addImportEdges_cons]
    cases hl : lookupA ctf imp with
    | none => exact ih ctf g fp hfp hctf hends hnd
    | some target =>
      have htarget : target ∈ g.nodes := hctf (imp, target) (lookupA_mem _ _ _ hl)
      have hne : (addEdge g fp target).nodes = g.nodes := nodes_addEdge g fp target hfp htarget
      have hends2 : ∀ e ∈ (addEdge g fp target).edges,
          e.1 ∈ (addEdge g fp target).nodes ∧ e.2 ∈ (addEdge g fp target).nodes := by
        intro e he
        rw [hne]
        rcases (mem_edges_addEdge g fp target e).mp he with h2 | h2
        · exact hends e h2
        · rw [h2]
          exact ⟨hfp, htarget⟩
      have hres := ih ctf (addEdge g fp target) fp (by rw [hne]; exact hfp)
        (fun kv hkv => by rw [hne]; exact hctf kv hkv) hends2
        (edges_addEdge_nodup g fp target hnd)
      refine ⟨?_, ?_, hres.2.2⟩
      · rw [hres.1, hne]
      · intro e he
        have h2 := hres.2.1 e he
        rw [hne] at h2
        exact h2

theorem pass2_fold_wf (ctf : List (String × String)) :
    ∀ (fis : List (String × List String)) (g : DiGraph),
      (∀ fi ∈ fis, fi.1 ∈ g.nodes) → (∀ kv ∈ ctf, kv.2 ∈ g.nodes) →
      (∀ e ∈ g.edges, e.1 ∈ g.nodes ∧ e.2 ∈ g.nodes) → g.edges.Nodup →
      (fis.foldl (fun g2 fi => addImportEdges ctf g2 fi.1 fi.2) g).nodes = g.nodes ∧
      (∀ e ∈ (fis.foldl (fun g2 fi => addImportEdges ctf g2 fi.1 fi.2) g).edges,
        e.1 ∈ g.nodes ∧ e.2 ∈ g.nodes) ∧
      (fis.foldl (fun g2 fi => addImportEdges ctf g2 fi.1 fi.2) g).edges.Nodup := by
  intro fis
  induction fis with
  | nil => intro g hfk hcv hends hnd; exact ⟨rfl, hends, hnd⟩
  | cons fi rest ih =>
    intro g hfk hcv hends hnd
    rw [List.foldl_cons]
    have hstep := addImportEdges_wf fi.2 ctf g fi.1 (hfk fi (List.mem_cons_self _ _))
      hcv hends hnd
    have hres := ih (addImportEdges ctf g fi.1 fi.2)
      (fun q hq => by rw [hstep.1]; exact hfk q (List.mem_cons_of_mem _ hq))
      (fun kv hkv => by rw [hstep.1]; exact hcv kv hkv)
      (fun e he => by rw [hstep.1]; exact hstep.2.1 e he)
      hstep.2.2
    refine ⟨?_, ?_, hres.2.2⟩
    · rw [hres.1, hstep.1]
    · intro e he
      have h2 := hres.2.1 e he
      rw [hstep.1] at h2
      exact h2

theorem build_graph_wf (parse : String → Option String × List String)
    (files : List (String × String)) : GraphWF (build_graph parse files) := by
  have hedges : (pass1 parse files).graph.edges = [] :=
    pass1_foldl_edges parse files ⟨[], [], ⟨[], []⟩⟩
  have hnodesnd : (pass1 parse files).graph.nodes.Nodup :=
    pass1_foldl_nodes_nodup parse files ⟨[], [], ⟨[], []⟩⟩ (by simp)
  have hres := pass2_fold_wf (pass1 parse files).class_to_file
    (pass1 parse files).file_imports (pass1 parse files).graph
    (pass1_fim_keys_in_nodes parse files) (pass1_ctf_vals_in_nodes parse files)
    (by intro e he; rw [hedges] at he; simp at he) (by rw [hedges]; simp)
  exact {
    nodesN := by
      show (build_graph parse files).nodes.Nodup
      unfold build_graph pass2
      rw [hres.1]
      exact hnodesnd
    edgesN := hres.2.2
    ends := by
      intro e he
      have h2 := hres.2.1 e he
      constructor
      · show e.1 ∈ (build_graph parse files).nodes
        unfold build_graph pass2
        rw [hres.1]
        exact h2.1
      · show e.2 ∈ (build_graph parse files).nodes
        unfold build_graph pass2
        rw [hres.1]
        exact h2.2 }

theorem build_nodes_eq (parse : String → Option String × List String)
    (files : List (String × String)) (hnd : (files.map Prod.fst).Nodup) :
    (build_graph parse files).nodes
      = (files.map Prod.fst).filter (fun p => pyEndsWith p ".java") := by
  have hedges : (pass1 parse files).graph.edges = [] :=
    pass1_foldl_edges parse files ⟨[], [], ⟨[], []⟩⟩
  have hres := pass2_fold_wf (pass1 parse files).class_to_file
    (pass1 parse files).file_imports (pass1 parse files).graph
    (pass1_fim_keys_in_nodes parse files) (pass1_ctf_vals_in_nodes parse files)
    (by intro e he; rw [hedges] at he; simp at he) (by rw [hedges]; simp)
  have h2 : (pass1 parse files).graph.nodes
      = (files.map Prod.fst).filter (fun p => pyEndsWith p ".java") :=
    pass1_foldl_nodes_formula parse files ⟨[], [], ⟨[], []⟩⟩ (by intro pc h; simp) hnd
  show (pass2 (pass1 parse files)).nodes = _
  unfold pass2
  rw [hres.1]
  exact h2

theorem insertSorted_perm (a : String) (l : List String) :
    (insertSorted a l).Perm (a :: l) := by
  induction l with
  | nil => exact List.Perm.refl _
  | cons b t ih =>
    unfold insertSorted
    split
    · exact List.Perm.refl _
    · exact (ih.cons b).trans (List.Perm.swap a b t)

theorem pySorted_perm (l : List String) : (pySorted l).Perm l := by
  induction l with
  | nil => exact List.Perm.refl _
  | cons a t ih =>
    exact (insertSorted_perm a (pySorted t)).trans (ih.cons a)

theorem posOf_append_cons (l1 : List String) (x : String) (l2 : List String)
    (hx : x ∉ l1) : posOf (l1 ++ x :: l2) x = l1.length := by
  induction l1 with
  | nil => simp [posOf]
  | cons a t ih =>
    have hax : ¬ a = x := fun h => hx (h ▸ List.mem_cons_self _ _)
    show posOf (a :: (t ++ x :: l2)) x = t.length + 1
    unfold posOf
    rw [if_neg hax, ih (fun h => hx (List.mem_cons_of_mem _ h))]

theorem posOf_le_length (l : List String) (x : String) : posOf l x ≤ l.length := by
  induction l with
  | nil => exact Nat.le_refl _
  | cons a t ih =>
    unfold posOf
    split
    · simp
    · simp only [List.length_cons]
      omega

theorem posOf_lt_of_split (l1 : List String) (u : String) (l2 : List String)
    (v : String) (l3 : List String)
    (hnd : (l1 ++ u :: l2 ++ v :: l3).Nodup) :
    posOf (l1 ++ u :: l2 ++ v :: l3) u < posOf (l1 ++ u :: l2 ++ v :: l3) v := by
  have hassoc : l1 ++ u :: l2 ++ v :: l3 = l1 ++ u :: (l2 ++ v :: l3) := by
    simp [List.append_assoc]
  have hu : u ∉ l1 := by
    have h2 := List.Nodup.of_append_left hnd
    have hd := List.disjoint_of_nodup_append h2
    exact fun h => hd h (List.mem_cons_self _ _)
  have hv : v ∉ l1 ++ u :: l2 := by
    have hd := List.disjoint_of_nodup_append hnd
    exact fun h => hd h (List.mem_cons_self _ _)
  have h1 : posOf (l1 ++ u :: l2 ++ v :: l3) u = l1.length := by
    rw [hassoc]
    exact posOf_append_cons l1 u (l2 ++ v :: l3) hu
  have h2 : posOf (l1 ++ u :: l2 ++ v :: l3) v = (l1 ++ u :: l2).length :=
    posOf_append_cons (l1 ++ u :: l2) v l3 hv
  rw [h1, h2]
  simp only [List.length_append, List.length_cons]
  omega

theorem chainB_rel (E : List (String × String)) (f : String → Nat)
    (hrel : ∀ u v, (u, v) ∈ E → f v < f u) :
    ∀ (t : List String) (a : String), chainB E a t = true → t ≠ [] →
      f (t.getLastD a) < f a := by
  intro t
  induction t with
  | nil => intro a h hne; exact absurd rfl hne
  | cons b t2 ih =>
    intro a h hne
    simp only [chainB, Bool.and_eq_true, decide_eq_true_eq] at h
    rw [List.getLastD_cons]
    cases t2 with
    | nil => exact hrel a b h.1
    | cons c t3 =>
      exact (ih b h.2 (by simp)).trans (hrel a b h.1)

theorem acyclic_of_rank (g : DiGraph) (rank : String → Nat)
    (h : ∀ e ∈ g.edges, rank e.2 < rank e.1) : Acyclic g := by
  intro l
  cases hb : isCycle g.edges l with
  | false => rfl
  | true =>
    exfalso
    cases l with
    | nil => simp [isCycle] at hb
    | cons v rest =>
      simp only [isCycle, Bool.and_eq_true, Bool.not_eq_true',
        decide_eq_true_eq] at hb
      obtain ⟨⟨hne, hchain⟩, hlast⟩ := hb
      have hrestne : rest ≠ [] := by
        cases rest with
        | nil => simp at hne
        | cons x t => simp
      have hdec := chainB_rel g.edges rank
        (fun u w hw => h (u, w) hw) rest v hchain hrestne
      rw [hlast] at hdec
      omega

theorem initMap_keys (g : DiGraph) :
    (initMap g).map Prod.fst = g.nodes.filter (fun v => !decide (inDeg g v = 0)) := by
  unfold initMap
  rw [List.map_map]
  exact List.map_id _

theorem kinv_init (g : DiGraph) (hWF : GraphWF g) :
    KInv g.nodes g.edges [] (initQueue g) (initMap g) := by
  refine {
    dnodup := by simp
    qnodup := hWF.nodesN.filter _
    mnodup := by rw [initMap_keys]; exact hWF.nodesN.filter _
    dq := fun x hx => absurd hx (List.not_mem_nil x)
    dm := fun x hx => absurd hx (List.not_mem_nil x)
    qm := ?_
    cover := ?_
    dsub := fun x hx => absurd hx (List.not_mem_nil x)
    qsub := fun x hx => (List.mem_filter.mp hx).1
    msub := ?_
    count := ?_
    ready := ?_ }
  · intro x hx hx2
    rw [initMap_keys] at hx2
    have h1 := (List.mem_filter.mp hx).2
    have h2 := (List.mem_filter.mp hx2).2
    rw [h1] at h2
    simp at h2
  · intro x hx
    by_cases hdeg : inDeg g x = 0
    · exact Or.inr (Or.inl (List.mem_filter.mpr ⟨hx, by simp [hdeg]⟩))
    · refine Or.inr (Or.inr ?_)
      rw [initMap_keys]
      exact List.mem_filter.mpr ⟨hx, by simp [hdeg]⟩
  · intro x hx
    rw [initMap_keys] at hx
    exact (List.mem_filter.mp hx).1
  · intro v k hvk
    unfold initMap at hvk
    rcases List.mem_map.mp hvk with ⟨v1, hv1, heq⟩
    rw [Prod.mk.injEq] at heq
    obtain ⟨he1, he2⟩ := heq
    subst he1
    subst he2
    have hpred := (List.mem_filter.mp hv1).2
    have hne : inDeg g v1 ≠ 0 := by simpa using hpred
    constructor
    · exact Nat.pos_of_ne_zero hne
    · rw [tcount_nil_eq]
      rfl
  · intro v hv w hw
    have hdeg : inDeg g v = 0 := by
      have := (List.mem_filter.mp hv).2
      simpa using this
    exfalso
    unfold inDeg at hdeg
    rw [List.countP_eq_zero] at hdeg
    exact hdeg (w, v) hw (by simp)

theorem init_len (g : DiGraph) :
    (initQueue g).length + (initMap g).length = g.nodes.length := by
  have hp := (List.filter_append_perm
    (fun v => decide (inDeg g v = 0)) g.nodes).length_eq
  rw [List.length_append] at hp
  unfold initQueue initMap
  rw [List.length_map]
  exact hp

theorem topoRaw_perm (g : DiGraph) (_hWF : GraphWF g) :
    ((topoRaw g).1 ++ ((topoRaw g).2).map Prod.fst).Perm g.nodes := by
  have h := kahn_conserve (adjOf g) g.nodes.length (initQueue g) (initMap g)
    (le_of_eq (init_len g))
  refine h.trans ?_
  rw [initMap_keys]
  exact List.filter_append_perm _ g.nodes

theorem topoRaw_out_perm (g : DiGraph) (hWF : GraphWF g)
    (hleft : (topoRaw g).2 = []) : ((topoRaw g).1).Perm g.nodes := by
  have h := topoRaw_perm g hWF
  rw [hleft] at h
  simpa using h

theorem topoRaw_nodup (g : DiGraph) (hWF : GraphWF g) : ((topoRaw g).1).Nodup := by
  have hperm := topoRaw_perm g hWF
  exact List.Nodup.of_append_left (hperm.symm.nodup hWF.nodesN)

theorem topoRaw_complete (g : DiGraph) (hWF : GraphWF g) (hacyc : Acyclic g) :
    (topoRaw g).2 = [] := by
  by_contra hne
  obtain ⟨l, hl⟩ := kahn_leftover_cycle g hWF g.nodes.length (initQueue g)
    (initMap g) [] (kinv_init g hWF) (le_of_eq (init_len g)) hne
  rw [hacyc l] at hl
  exact absurd hl (by simp)

theorem topoRaw_respect (g : DiGraph) (hWF : GraphWF g) (u v : String)
    (he : (u, v) ∈ g.edges) (hv : v ∈ (topoRaw g).1) :
    ∃ l₁ l₂ l₃, (topoRaw g).1 = l₁ ++ u :: l₂ ++ v :: l₃ := by
  rcases kahn_respect g hWF g.nodes.length (initQueue g) (initMap g) []
    (kinv_init g hWF) (le_of_eq (init_len g)) u v he hv with h | h
  · simp at h
  · exact h

theorem topoRaw_cycle_incomplete (g : DiGraph) (hWF : GraphWF g)
    (hcyc : HasCycle g) : (topoRaw g).2 ≠ [] := by
  intro hleft
  obtain ⟨l, hl⟩ := hcyc
  have hnd := topoRaw_nodup g hWF
  have hperm := topoRaw_out_perm g hWF hleft
  have hedge_pos : ∀ u v, (u, v) ∈ g.edges →
      posOf (topoRaw g).1 u < posOf (topoRaw g).1 v := by
    intro u v he
    have hvout : v ∈ (topoRaw g).1 := hperm.mem_iff.mpr (hWF.ends _ he).2
    obtain ⟨l₁, l₂, l₃, hsplit⟩ := topoRaw_respect g hWF u v he hvout
    rw [hsplit]
    rw [hsplit] at hnd
    exact posOf_lt_of_split l₁ u l₂ v l₃ hnd
  have hrel : ∀ u v, (u, v) ∈ g.edges →
      (topoRaw g).1.length - posOf (topoRaw g).1 v
        < (topoRaw g).1.length - posOf (topoRaw g).1 u := by
    intro u v he
    have h1 := hedge_pos u v he
    have h2 := posOf_le_length (topoRaw g).1 v
    omega
  cases l with
  | nil => simp [isCycle] at hl
  | cons v rest =>
    simp only [isCycle, Bool.and_eq_true, Bool.not_eq_true',
      decide_eq_true_eq] at hl
    obtain ⟨⟨hne', hchain⟩, hlast⟩ := hl
    have hrestne : rest ≠ [] := by
      cases rest with
      | nil => simp at hne'
      | cons x t => simp
    have hdec := chainB_rel g.edges
      (fun x => (topoRaw g).1.length - posOf (topoRaw g).1 x)
      (fun u w hw => hrel u w hw) rest v hchain hrestne
    rw [hlast] at hdec
    omega

theorem get_topo_of_complete (g : DiGraph) (hleft : (topoRaw g).2 = []) :
    get_topological_sort g = ((topoRaw g).1).reverse := by
  simp only [get_topological_sort]
  rw [if_pos hleft]

theorem get_topo_of_cycle (g : DiGraph) (hWF : GraphWF g) (hcyc : HasCycle g) :
    get_topological_sort g = pySorted g.nodes := by
  simp only [get_topological_sort]
  rw [if_neg (topoRaw_cycle_incomplete g hWF hcyc)]

theorem reverse_split (l1 : List String) (u : String) (l2 : List String)
    (v : String) (l3 : List String) :
    (l1 ++ u :: l2 ++ v :: l3).reverse = l3.reverse ++ v :: l2.reverse ++ u :: l1.reverse := by
  simp [List.reverse_append, List.append_assoc]

/-- C1: for an acyclic built graph, every edge A→B of the graph (A
references B) has B strictly before A in the sequence returned by
`get_topological_sort` (the reversed Kahn order). -/
theorem c1_topo_respects_edges (parse : String → Option String × List String)
    (files : List (String × String)) (A B : String)
    (hacyc : Acyclic (build_graph parse files))
    (hedge : (A, B) ∈ (build_graph parse files).edges) :
    ∃ l₁ l₂ l₃, get_topological_sort (build_graph parse files)
      = l₁ ++ B :: l₂ ++ A :: l₃ := by
  have hWF := build_graph_wf parse files
  have hleft := topoRaw_complete _ hWF hacyc
  have hB : B ∈ (topoRaw (build_graph parse files)).1 :=
    (topoRaw_out_perm _ hWF hleft).mem_iff.mpr (hWF.ends _ hedge).2
  obtain ⟨l₁, l₂, l₃, hsplit⟩ := topoRaw_respect _ hWF A B hedge hB
  refine ⟨l₃.reverse, l₂.reverse, l₁.reverse, ?_⟩
  rw [get_topo_of_complete _ hleft, hsplit, reverse_split]

/-- C1 witness: a two-file codebase where `A.java` imports `p.B`. -/
theorem c1_witness :
    Acyclic (build_graph pstub
      [("A.java", "package p;\nimport p.B;"), ("B.java", "package p;")]) ∧
    ("A.java", "B.java") ∈ (build_graph pstub
      [("A.java", "package p;\nimport p.B;"), ("B.java", "package p;")]).edges ∧
    ∃ l₁ l₂ l₃, get_topological_sort (build_graph pstub
      [("A.java", "package p;\nimport p.B;"), ("B.java", "package p;")])
        = l₁ ++ "B.java" :: l₂ ++ "A.java" :: l₃ := by
  have hacyc : Acyclic (build_graph pstub
      [("A.java", "package p;\nimport p.B;"), ("B.java", "package p;")]) :=
    acyclic_of_rank _ (fun s => if s = "A.java" then 1 else 0) (by decide)
  exact ⟨hacyc, by decide, c1_topo_respects_edges pstub _ "A.java" "B.java" hacyc (by decide)⟩

/-- C2: a cyclic built graph — a self-loop from a self-import
included — makes `get_topological_sort` terminate with the
lexicographically sorted list of all node paths. -/
theorem c2_cycle_fallback_sorted (parse : String → Option String × List String)
    (files : List (String × String))
    (hcyc : HasCycle (build_graph parse files)) :
    get_topological_sort (build_graph parse files)
      = pySorted (build_graph parse files).nodes :=
  get_topo_of_cycle _ (build_graph_wf parse files) hcyc

/-- C2 witness: a file importing its own fully qualified name creates
a self-loop and the output is the sorted node list. -/
theorem c2_witness :
    HasCycle (build_graph pstub
      [("B.java", "x"), ("A.java", "package p;\nimport p.A;")]) ∧
    get_topological_sort (build_graph pstub
      [("B.java", "x"), ("A.java", "package p;\nimport p.A;")])
      = pySorted (build_graph pstub
          [("B.java", "x"), ("A.java", "package p;\nimport p.A;")]).nodes ∧
    pySorted (build_graph pstub
      [("B.java", "x"), ("A.java", "package p;\nimport p.A;")]).nodes
      = ["A.java", "B.java"] :=
  ⟨⟨["A.java", "A.java"], by decide⟩,
   c2_cycle_fallback_sorted pstub _ ⟨["A.java", "A.java"], by decide⟩,
   by decide⟩

/-- C3: the returned sequence is a permutation of exactly the input
keys with the recognized extension — no duplicates, no omissions — in
the topological branch and in the lexicographic fallback branch alike. -/
theorem c3_order_perm_nodes (parse : String → Option String × List String)
    (files : List (String × String)) (hnd : (files.map Prod.fst).Nodup) :
    (get_topological_sort (build_graph parse files)).Perm
      ((files.map Prod.fst).filter (fun p => pyEndsWith p ".java")) ∧
    (get_topological_sort (build_graph parse files)).Nodup := by
  have hWF := build_graph_wf parse files
  have hperm : (get_topological_sort (build_graph parse files)).Perm
      (build_graph parse files).nodes := by
    simp only [get_topological_sort]
    by_cases h : (topoRaw (build_graph parse files)).2 = []
    · rw [if_pos h]
      exact (List.reverse_perm _).trans (topoRaw_out_perm _ hWF h)
    · rw [if_neg h]
      exact pySorted_perm _
  rw [build_nodes_eq parse files hnd] at hperm
  exact ⟨hperm, hperm.symm.nodup (hnd.filter _)⟩

/-- C3 witness: two source files and one non-source file. -/
theorem c3_witness :
    (([("A.java", "package p;\nimport p.B;"), ("B.java", "package p;"),
        ("N.txt", "y")].map Prod.fst).Nodup) ∧
    (get_topological_sort (build_graph pstub
      [("A.java", "package p;\nimport p.B;"), ("B.java", "package p;"),
        ("N.txt", "y")])).Perm
      (([("A.java", "package p;\nimport p.B;"), ("B.java", "package p;"),
        ("N.txt", "y")].map Prod.fst).filter (fun p => pyEndsWith p ".java")) ∧
    (get_topological_sort (build_graph pstub
      [("A.java", "package p;\nimport p.B;"), ("B.java", "package p;"),
        ("N.txt", "y")])).Nodup := by
  have hnd : (([("A.java", "package p;\nimport p.B;"), ("B.java", "package p;"),
      ("N.txt", "y")].map Prod.fst)).Nodup := by decide
  exact ⟨hnd, (c3_order_perm_nodes pstub _ hnd).1, (c3_order_perm_nodes pstub _ hnd).2⟩

/-- C5: every edge of the built graph has both endpoints among the
graph's nodes; a reference that does not resolve in the SymbolIndex
adds no edge and raises no error (the builder is total). -/
theorem c5_edges_endpoints (parse : String → Option String × List String)
    (files : List (String × String)) :
    ∀ e ∈ (build_graph parse files).edges,
      e.1 ∈ (build_graph parse files).nodes ∧ e.2 ∈ (build_graph parse files).nodes :=
  (build_graph_wf parse files).ends

/-- C5 witness: the resolved edge of the two-file codebase, with an
unresolved external import (`java.util.List`) dropped silently. -/
theorem c5_witness :
    ("A.java", "B.java") ∈ (build_graph pstub
      [("A.java", "package p;\nimport p.B;\nimport java.util.List;"),
       ("B.java", "package p;")]).edges ∧
    "A.java" ∈ (build_graph pstub
      [("A.java", "package p;\nimport p.B;\nimport java.util.List;"),
       ("B.java", "package p;")]).nodes ∧
    "B.java" ∈ (build_graph pstub
      [("A.java", "package p;\nimport p.B;\nimport java.util.List;"),
       ("B.java", "package p;")]).nodes := by
  have hm : ("A.java", "B.java") ∈ (build_graph pstub
      [("A.java", "package p;\nimport p.B;\nimport java.util.List;"),
       ("B.java", "package p;")]).edges := by decide
  exact ⟨hm, (c5_edges_endpoints pstub _ _ hm).1, (c5_edges_endpoints pstub _ _ hm).2⟩

theorem kahn_nil_adj (adj : String → List String) (hadj : ∀ u, adj u = []) :
    ∀ (fuel : Nat) (q : List String), q.length ≤ fuel →
      kahnAux adj fuel q [] = (q, []) := by
  intro fuel
  induction fuel with
  | zero =>
    intro q hf
    have hq : q = [] := by
      cases q with
      | nil => rfl
      | cons a t => simp at hf
    rw [hq]
    rfl
  | succ fuel ih =>
    intro q hf
    cases q with
    | nil => rfl
    | cons u rest =>
      have h1 : decChildren ([] : List (String × Nat)) rest (adj u) = ([], rest) := by
        rw [hadj u]
        rfl
      have h0 : kahnAux adj (fuel + 1) (u :: rest) [] =
          (u :: (kahnAux adj fuel (decChildren [] rest (adj u)).2
                  (decChildren [] rest (adj u)).1).1,
           (kahnAux adj fuel (decChildren [] rest (adj u)).2
                  (decChildren [] rest (adj u)).1).2) := rfl
      rw [h0, h1]
      have h2 := ih rest (by simp only [List.length_cons] at hf; omega)
      rw [h2]

/-- C10: when the built graph has no edges, the output is the `.java`
input keys in reverse insertion order — the tie-break among mutually
unconstrained nodes is reverse insertion order, not lexicographic. -/
theorem c10_reverse_insertion (parse : String → Option String × List String)
    (files : List (String × String)) (hnd : (files.map Prod.fst).Nodup)
    (hedges : (build_graph parse files).edges = []) :
    get_topological_sort (build_graph parse files) =
      ((files.map Prod.fst).filter (fun p => pyEndsWith p ".java")).reverse := by
  have hdeg : ∀ v, inDeg (build_graph parse files) v = 0 := by
    intro v
    unfold inDeg
    rw [hedges]
    rfl
  have hq : initQueue (build_graph parse files) = (build_graph parse files).nodes := by
    unfold initQueue
    apply List.filter_eq_self.mpr
    intro a _
    simp [hdeg a]
  have hm : initMap (build_graph parse files) = [] := by
    unfold initMap
    have h2 : (build_graph parse files).nodes.filter
        (fun v => !decide (inDeg (build_graph parse files) v = 0)) = [] := by
      rw [List.filter_eq_nil_iff]
      intro a _
      simp [hdeg a]
    rw [h2]
    rfl
  have hadj : ∀ u, adjOf (build_graph parse files) u = [] := by
    intro u
    unfold adjOf
    rw [hedges]
    rfl
  have hrun : topoRaw (build_graph parse files)
      = ((build_graph parse files).nodes, []) := by
    unfold topoRaw
    rw [hq, hm]
    exact kahn_nil_adj _ hadj _ _ (le_refl _)
  simp only [get_topological_sort]
  rw [hrun]
  rw [if_pos rfl]
  rw [build_nodes_eq parse files hnd]

/-- C10 witness: two unrelated files come back in reverse insertion
order. -/
theorem c10_witness :
    (([("B.java", "x"), ("A.java", "y")].map Prod.fst).Nodup) ∧
    (build_graph pstub [("B.java", "x"), ("A.java", "y")]).edges = [] ∧
    get_topological_sort (build_graph pstub [("B.java", "x"), ("A.java", "y")])
      = ["A.java", "B.java"] := by
  have h1 : (([("B.java", "x"), ("A.java", "y")].map Prod.fst)).Nodup := by decide
  have h2 : (build_graph pstub [("B.java", "x"), ("A.java", "y")]).edges = [] := by decide
  refine ⟨h1, h2, ?_⟩
  rw [c10_reverse_insertion pstub _ h1 h2]
  decide

theorem wordDot_not_space (c : Char) (h : wordDot c = true) : isSpaceChar c = false := by
  cases hs : isSpaceChar c
  · rfl
  · exfalso
    unfold isSpaceChar at hs
    simp only [Bool.or_eq_true, decide_eq_true_eq] at hs
    rcases hs with ((((h1 | h1) | h1) | h1) | h1) | h1 <;>
      (subst h1; exact absurd h (by decide))

theorem matchPat_none_of_not_prefix (kw s : List Char)
    (hp : ¬ kw.isPrefixOf s = true) : matchPat kw s = none := by
  unfold matchPat
  rw [if_neg hp]

theorem matchPat_none_of_ws_empty (kw s : List Char)
    (h : ((s.drop kw.length).takeWhile isSpaceChar).isEmpty = true) :
    matchPat kw s = none := by
  unfold matchPat
  by_cases hp : kw.isPrefixOf s = true
  · rw [if_pos hp, if_pos h]
  · rw [if_neg hp]

theorem matchPat_none_of_head (kw : List Char) (kwh : Char) (kwt : List Char)
    (hkw : kw = kwh :: kwt) (x : Char) (T : List Char) (hx : ¬ kwh = x) :
    matchPat kw (x :: T) = none := by
  apply matchPat_none_of_not_prefix
  rw [hkw]
  show ¬ ((kwh == x) && kwt.isPrefixOf T) = true
  simp [hx]

theorem matchPat_decomp (kw s cap rest : List Char)
    (h : matchPat kw s = some (cap, rest)) :
    ∃ ws, s = kw ++ (ws ++ (cap ++ (';' :: rest))) ∧ ws ≠ [] ∧
      (∀ c ∈ ws, isSpaceChar c = true) ∧ cap ≠ [] ∧
      (∀ c ∈ cap, wordDot c = true) := by
  unfold matchPat at h
  by_cases hp : kw.isPrefixOf s = true
  · rw [if_pos hp] at h
    by_cases hws : ((s.drop kw.length).takeWhile isSpaceChar).isEmpty = true
    · rw [if_pos hws] at h; exact absurd h (by simp)
    · rw [if_neg hws] at h
      by_cases hcap : (((s.drop kw.length).dropWhile isSpaceChar).takeWhile
          wordDot).isEmpty = true
      · rw [if_pos hcap] at h; exact absurd h (by simp)
      · rw [if_neg hcap] at h
        split at h
        · next rest2 heq =>
          rw [Option.some_inj, Prod.mk.injEq] at h
          obtain ⟨hc, hr⟩ := h
          obtain ⟨s1, hs1⟩ := List.isPrefixOf_iff_prefix.mp hp
          have hdrop : s.drop kw.length = s1 := by
            rw [← hs1]; exact List.drop_left kw s1
          rw [hdrop] at heq hc hws hcap
          have hsplit2 : s1 = s1.takeWhile isSpaceChar
              ++ ((s1.dropWhile isSpaceChar).takeWhile wordDot
                  ++ (s1.dropWhile isSpaceChar).dropWhile wordDot) := by
            rw [List.takeWhile_append_dropWhile, List.takeWhile_append_dropWhile]
          refine ⟨s1.takeWhile isSpaceChar, ?_, ?_, ?_, ?_, ?_⟩
          · rw [← hs1]
            congr 1
            rw [← hc, ← hr, ← heq]
            exact hsplit2
          · intro hnil
            rw [hnil] at hws
            exact hws rfl
          · intro c hc2
            exact List.mem_takeWhile_imp hc2
          · intro hnil
            rw [hc, hnil] at hcap
            exact hcap rfl
          · intro c hc2
            rw [← hc] at hc2
            exact List.mem_takeWhile_imp hc2
        · next heq2 => exact absurd h (by simp)
  · rw [if_neg hp] at h
    exact absurd h (by simp)

theorem matchPat_nil (kw : List Char) (kwh : Char) (kwt : List Char)
    (hkw : kw = kwh :: kwt) : matchPat kw [] = none := by
  apply matchPat_none_of_not_prefix
  rw [hkw]
  show ¬ (List.isPrefixOf (kwh :: kwt) [] = true)
  simp [List.isPrefixOf]

theorem matchPat_no_inner (kwh : Char) (kwt : List Char)
    (hfirst : kwh ∉ kwt) (hsemi : (';' : Char) ∉ kwh :: kwt)
    (hsp : isSpaceChar kwh = false)
    (s cap rest : List Char) (h : matchPat (kwh :: kwt) s = some (cap, rest)) :
    ∀ j, 0 < j → j + rest.length < s.length →
      matchPat (kwh :: kwt) (s.drop j) = none := by
  obtain ⟨ws, hs, hwsne, hwssp, hcapne, hcapw⟩ := matchPat_decomp _ s cap rest h
  intro j hj0 hjlt
  have hlen : s.length = kwt.length + 1 + ws.length + cap.length + 1 + rest.length := by
    rw [hs]
    simp only [List.length_append, List.length_cons]
    omega
  rcases Nat.lt_or_ge j (kwt.length + 1) with h1 | h1
  · obtain ⟨j2, rfl⟩ : ∃ j2, j = j2 + 1 := ⟨j - 1, by omega⟩
    have hj2 : j2 < kwt.length := by omega
    have hdrop1 : s.drop (j2 + 1) = kwt.drop j2 ++ (ws ++ (cap ++ (';' :: rest))) := by
      rw [hs]
      rw [List.drop_append_of_le_length (by simp; omega)]
      rfl
    have hcons : kwt.drop j2 = kwt[j2] :: kwt.drop (j2 + 1) :=
      List.drop_eq_getElem_cons hj2
    rw [hdrop1, hcons]
    have hne2 : ¬ kwh = kwt[j2] := by
      intro he
      exact hfirst (he ▸ List.getElem_mem hj2)
    exact matchPat_none_of_head _ kwh kwt rfl _ _ hne2
  · rcases Nat.lt_or_ge j (kwt.length + 1 + ws.length) with h2 | h2
    · have ht : j - (kwh :: kwt).length < ws.length := by simp; omega
      have hdrop1 : s.drop j
          = ws.drop (j - (kwh :: kwt).length) ++ (cap ++ (';' :: rest)) := by
        rw [hs, List.drop_append_eq_append_drop]
        rw [List.drop_eq_nil_of_le (by simp; omega), List.nil_append]
        exact List.drop_append_of_le_length (le_of_lt ht)
      have hcons : ws.drop (j - (kwh :: kwt).length)
          = ws[j - (kwh :: kwt).length] :: ws.drop (j - (kwh :: kwt).length + 1) :=
        List.drop_eq_getElem_cons ht
      rw [hdrop1, hcons]
      have hxs : isSpaceChar (ws[j - (kwh :: kwt).length]) = true :=
        hwssp _ (List.getElem_mem ht)
      have hne2 : ¬ kwh = ws[j - (kwh :: kwt).length] := by
        intro he
        rw [← he] at hxs
        rw [hsp] at hxs
        exact absurd hxs (by simp)
      exact matchPat_none_of_head _ kwh kwt rfl _ _ hne2
    · have ht : j - (kwh :: kwt).length - ws.length ≤ cap.length := by simp; omega
      have hdrop1 : s.drop j
          = cap.drop (j - (kwh :: kwt).length - ws.length) ++ (';' :: rest) := by
        rw [hs, List.drop_append_eq_append_drop]
        rw [List.drop_eq_nil_of_le (by simp; omega), List.nil_append]
        rw [List.drop_append_eq_append_drop]
        rw [List.drop_eq_nil_of_le (by simp; omega), List.nil_append]
        exact List.drop_append_of_le_length ht
      rw [hdrop1]
      by_cases hp : (kwh :: kwt).isPrefixOf
          (cap.drop (j - (kwh :: kwt).length - ws.length) ++ (';' :: rest)) = true
      · obtain ⟨t2, ht2⟩ := List.isPrefixOf_iff_prefix.mp hp
        rcases Nat.lt_or_ge (cap.drop (j - (kwh :: kwt).length - ws.length)).length
            (kwh :: kwt).length with hlen2 | hlen2
        · exfalso
          apply hsemi
          have e1 : (kwh :: kwt) = (cap.drop (j - (kwh :: kwt).length - ws.length)
              ++ (';' :: rest)).take (kwh :: kwt).length := by
            rw [← ht2, List.take_left]
          rw [List.take_append_eq_append_take,
            List.take_of_length_le (le_of_lt hlen2)] at e1
          obtain ⟨d, hd⟩ : ∃ d, (kwh :: kwt).length
              - (cap.drop (j - (kwh :: kwt).length - ws.length)).length = d + 1 :=
            ⟨(kwh :: kwt).length
              - (cap.drop (j - (kwh :: kwt).length - ws.length)).length - 1, by omega⟩
          rw [hd, List.take_succ_cons] at e1
          rw [e1]
          exact List.mem_append.mpr (Or.inr (List.mem_cons_self _ _))
        · apply matchPat_none_of_ws_empty
          rw [List.drop_append_of_le_length hlen2]
          cases hwd : (cap.drop (j - (kwh :: kwt).length - ws.length)).drop
              (kwh :: kwt).length with
          | nil =>
            rw [List.nil_append]
            show (List.takeWhile isSpaceChar (';' :: rest)).isEmpty = true
            rw [List.takeWhile_cons]
            simp [show isSpaceChar ';' = false from by decide]
          | cons x T2 =>
            have hxc : x ∈ cap := List.drop_subset _ _
              (List.drop_subset _ _ (hwd ▸ List.mem_cons_self x T2))
            have hxs : isSpaceChar x = false := wordDot_not_space x (hcapw x hxc)
            show (List.takeWhile isSpaceChar ((x :: T2) ++ (';' :: rest))).isEmpty = true
            rw [List.cons_append, List.takeWhile_cons]
            simp [hxs]
      · exact matchPat_none_of_not_prefix _ _ hp

theorem matchPat_pre (kw s cap rest : List Char)
    (h : matchPat kw s = some (cap, rest)) :
    ∃ pre, s = pre ++ rest ∧ 0 < pre.length ∧ pre.length + rest.length = s.length := by
  obtain ⟨ws, hs, _, _, _, _⟩ := matchPat_decomp kw s cap rest h
  refine ⟨kw ++ (ws ++ (cap ++ [';'])), ?_, ?_, ?_⟩
  · rw [hs]
    simp [List.append_assoc]
  · simp [List.length_append]
  · rw [hs]
    simp only [List.length_append, List.length_cons, List.length_nil]
    omega

theorem scanAll_cons_some (kw : List Char) (fuel : Nat) (c : Char)
    (l cap rest : List Char) (h : matchPat kw (c :: l) = some (cap, rest)) :
    scanAll kw (fuel + 1) (c :: l) = String.mk cap :: scanAll kw fuel rest := by
  simp only [scanAll, h]

theorem scanAll_cons_none (kw : List Char) (fuel : Nat) (c : Char) (l : List Char)
    (h : matchPat kw (c :: l) = none) :
    scanAll kw (fuel + 1) (c :: l) = scanAll kw fuel l := by
  simp only [scanAll, h]

theorem scanAll_eq_nil_iff (kwh : Char) (kwt : List Char) :
    ∀ (fuel : Nat) (l : List Char), l.length ≤ fuel →
      (scanAll (kwh :: kwt) fuel l = [] ↔
        ∀ i, matchPat (kwh :: kwt) (l.drop i) = none) := by
  intro fuel
  induction fuel with
  | zero =>
    intro l hf
    have hl : l = [] := by
      cases l with
      | nil => rfl
      | cons a t => simp at hf
    subst hl
    constructor
    · intro _ i
      rw [List.drop_nil]
      exact matchPat_nil _ kwh kwt rfl
    · intro _
      rfl
  | succ fuel ih =>
    intro l hf
    cases l with
    | nil =>
      constructor
      · intro _ i
        rw [List.drop_nil]
        exact matchPat_nil _ kwh kwt rfl
      · intro _
        rfl
    | cons c t =>
      cases hm : matchPat (kwh :: kwt) (c :: t) with
      | some pr =>
        obtain ⟨cap, rest⟩ := pr
        rw [scanAll_cons_some _ _ _ _ _ _ hm]
        constructor
        · intro hcontra
          exact absurd hcontra (by simp)
        · intro hall
          exfalso
          have h0 := hall 0
          rw [List.drop_zero, hm] at h0
          exact absurd h0 (by simp)
      | none =>
        rw [scanAll_cons_none _ _ _ _ hm]
        rw [ih t (by simp at hf; omega)]
        constructor
        · intro hall i
          cases i with
          | zero => rw [List.drop_zero]; exact hm
          | succ i2 => exact hall i2
        · intro hall i
          exact hall (i + 1)

theorem scanAll_head_leftmost (kwh : Char) (kwt : List Char) :
    ∀ (fuel : Nat) (l : List Char) (r : String) (t : List String), l.length ≤ fuel →
      scanAll (kwh :: kwt) fuel l = r :: t →
      ∃ i cap rest, matchPat (kwh :: kwt) (l.drop i) = some (cap, rest) ∧
        r = String.mk cap ∧ ∀ j, j < i → matchPat (kwh :: kwt) (l.drop j) = none := by
  intro fuel
  induction fuel with
  | zero =>
    intro l r t hf hsc
    have hl : l = [] := by
      cases l with
      | nil => rfl
      | cons a t2 => simp at hf
    subst hl
    exact absurd hsc (by simp [scanAll])
  | succ fuel ih =>
    intro l r t hf hsc
    cases l with
    | nil => exact absurd hsc (by simp [scanAll])
    | cons c t2 =>
      cases hm : matchPat (kwh :: kwt) (c :: t2) with
      | some pr =>
        obtain ⟨cap, rest⟩ := pr
        rw [scanAll_cons_some _ _ _ _ _ _ hm] at hsc
        rw [List.cons.injEq] at hsc
        exact ⟨0, cap, rest, by rw [List.drop_zero]; exact hm, hsc.1.symm,
          fun j hj => absurd hj (by omega)⟩
      | none =>
        rw [scanAll_cons_none _ _ _ _ hm] at hsc
        obtain ⟨i, cap, rest, hmi, hr, hleft⟩ := ih t2 r t (by simp at hf; omega) hsc
        refine ⟨i + 1, cap, rest, hmi, hr, ?_⟩
        intro j hj
        cases j with
        | zero => rw [List.drop_zero]; exact hm
        | succ j2 => exact hleft j2 (by omega)

theorem scanAll_sound (kwh : Char) (kwt : List Char) :
    ∀ (fuel : Nat) (l : List Char) (r : String), r ∈ scanAll (kwh :: kwt) fuel l →
      ∃ i cap rest, matchPat (kwh :: kwt) (l.drop i) = some (cap, rest) ∧
        r = String.mk cap := by
  intro fuel
  induction fuel with
  | zero =>
    intro l r hr
    exact absurd hr (by simp [scanAll])
  | succ fuel ih =>
    intro l r hr
    cases l with
    | nil => exact absurd hr (by simp [scanAll])
    | cons c t2 =>
      cases hm : matchPat (kwh :: kwt) (c :: t2) with
      | some pr =>
        obtain ⟨cap, rest⟩ := pr
        rw [scanAll_cons_some _ _ _ _ _ _ hm] at hr
        rcases List.mem_cons.mp hr with h2 | h2
        · exact ⟨0, cap, rest, by rw [List.drop_zero]; exact hm, h2⟩
        · obtain ⟨i, cap2, rest2, hmi, hreq⟩ := ih rest r h2
          obtain ⟨pre, hpre, hprepos, hlen⟩ := matchPat_pre _ _ _ _ hm
          refine ⟨pre.length + i, cap2, rest2, ?_, hreq⟩
          rw [hpre, List.drop_append]
          exact hmi
      | none =>
        rw [scanAll_cons_none _ _ _ _ hm] at hr
        obtain ⟨i, cap2, rest2, hmi, hreq⟩ := ih t2 r hr
        exact ⟨i + 1, cap2, rest2, hmi, hreq⟩

theorem scanAll_complete (kwh : Char) (kwt : List Char)
    (hfirst : kwh ∉ kwt) (hsemi : (';' : Char) ∉ kwh :: kwt)
    (hsp : isSpaceChar kwh = false) :
    ∀ (fuel : Nat) (l : List Char), l.length ≤ fuel →
      ∀ (i : Nat) (cap rest : List Char),
        matchPat (kwh :: kwt) (l.drop i) = some (cap, rest) →
        String.mk cap ∈ scanAll (kwh :: kwt) fuel l := by
  intro fuel
  induction fuel with
  | zero =>
    intro l hf i cap rest hmi
    have hl : l = [] := by
      cases l with
      | nil => rfl
      | cons a t => simp at hf
    subst hl
    rw [List.drop_nil, matchPat_nil _ kwh kwt rfl] at hmi
    exact absurd hmi (by simp)
  | succ fuel ih =>
    intro l hf i cap rest hmi
    cases l with
    | nil =>
      rw [List.drop_nil, matchPat_nil _ kwh kwt rfl] at hmi
      exact absurd hmi (by simp)
    | cons c t2 =>
      cases hm : matchPat (kwh :: kwt) (c :: t2) with
      | none =>
        rw [scanAll_cons_none _ _ _ _ hm]
        cases i with
        | zero =>
          rw [List.drop_zero, hm] at hmi
          exact absurd hmi (by simp)
        | succ i2 => exact ih t2 (by simp at hf; omega) i2 cap rest hmi
      | some pr =>
        obtain ⟨cap0, rest0⟩ := pr
        rw [scanAll_cons_some _ _ _ _ _ _ hm]
        obtain ⟨pre, hpre, hprepos, hlen⟩ := matchPat_pre _ _ _ _ hm
        rcases Nat.lt_or_ge i pre.length with hi | hi
        · cases i with
          | zero =>
            rw [List.drop_zero, hm, Option.some_inj, Prod.mk.injEq] at hmi
            rw [← hmi.1]
            exact List.mem_cons_self _ _
          | succ i2 =>
            exfalso
            have hnone := matchPat_no_inner kwh kwt hfirst hsemi hsp
              (c :: t2) cap0 rest0 hm (i2 + 1) (by omega) (by omega)
            rw [hnone] at hmi
            exact absurd hmi (by simp)
        · apply List.mem_cons_of_mem
          have hdrop : (c :: t2).drop i = rest0.drop (i - pre.length) := by
            rw [hpre]
            obtain ⟨d, hd⟩ : ∃ d, i = pre.length + d := ⟨i - pre.length, by omega⟩
            rw [hd, List.drop_append]
            congr 1
            omega
          rw [hdrop] at hmi
          refine ih rest0 ?_ (i - pre.length) cap rest hmi
          simp only [List.length_cons] at hf hlen
          omega

theorem mk_ne_nil (cap : List Char) (h : cap ≠ []) : String.mk cap ≠ "" := by
  intro he
  apply h
  have h2 : (String.mk cap).data = ("" : String).data := by rw [he]
  simpa using h2

/-- C8: when the primary parse returns the sentinel, the builder's
fallback computes the namespace as the first occurrence of
`package <dotted-name>;` in the text (empty string when there is no
match) and the reference set as the set of all `import <dotted-name>;`
occurrences (`re.findall` collects every non-overlapping occurrence,
and no other occurrence exists inside a match's span); the fallback is
a total function, yielding empty results when nothing matches. -/
theorem c8_fallback_extraction (parse : String → Option String × List String)
    (content : String) :
    ((parse content).1 = none →
      effectiveParse parse content = (fallbackPkg content, fallbackImports content)) ∧
    (fallbackPkg content = "" ↔ ∀ i, capAt ("package").data content i = none) ∧
    (∀ ns, fallbackPkg content = ns → ns ≠ "" →
      ∃ i, capAt ("package").data content i = some ns ∧
        ∀ j, j < i → capAt ("package").data content j = none) ∧
    (∀ r, r ∈ fallbackImports content ↔
      ∃ i, capAt ("import").data content i = some r) := by
  have hkp : ("package").data = 'p' :: ("ackage").data := rfl
  have hki : ("import").data = 'i' :: ("mport").data := rfl
  refine ⟨?_, ?_, ?_, ?_⟩
  · intro h
    unfold effectiveParse
    cases hp2 : parse content with
    | mk o imps =>
      cases o with
      | none => simp
      | some pkg =>
        rw [hp2] at h
        simp at h
  · unfold fallbackPkg reFindAll
    rw [hkp]
    constructor
    · intro hempty i
      unfold capAt
      cases hsc : scanAll ('p' :: ("ackage").data) content.data.length content.data with
      | nil =>
        have hall := (scanAll_eq_nil_iff 'p' ("ackage").data content.data.length
          content.data (le_refl _)).mp hsc
        rw [hall i]
        rfl
      | cons r t =>
        exfalso
        rw [hsc] at hempty
        simp only [List.headD_cons] at hempty
        obtain ⟨i0, cap, rest0, hm0, hr0, _⟩ := scanAll_head_leftmost 'p'
          ("ackage").data content.data.length content.data r t (le_refl _) hsc
        obtain ⟨_, _, _, _, hcapne, _⟩ := matchPat_decomp _ _ _ _ hm0
        exact mk_ne_nil cap hcapne (by rw [← hr0]; exact hempty)
    · intro hall
      have hnil : scanAll ('p' :: ("ackage").data) content.data.length
          content.data = [] := by
        apply (scanAll_eq_nil_iff 'p' ("ackage").data content.data.length
          content.data (le_refl _)).mpr
        intro i
        have h2 := hall i
        unfold capAt at h2
        cases hmm : matchPat ('p' :: ("ackage").data) (content.data.drop i) with
        | none => rfl
        | some pr =>
          rw [hmm] at h2
          simp at h2
      rw [hnil]
      rfl
  · intro ns hns hne
    unfold fallbackPkg reFindAll at hns
    rw [hkp] at hns
    cases hsc : scanAll ('p' :: ("ackage").data) content.data.length content.data with
    | nil =>
      rw [hsc] at hns
      simp only [List.headD_nil] at hns
      exact absurd hns.symm hne
    | cons r t =>
      rw [hsc] at hns
      simp only [List.headD_cons] at hns
      obtain ⟨i0, cap, rest0, hm0, hr0, hleft⟩ := scanAll_head_leftmost 'p'
        ("ackage").data content.data.length content.data r t (le_refl _) hsc
      refine ⟨i0, ?_, ?_⟩
      · unfold capAt
        rw [hkp, hm0]
        show some (String.mk cap) = some ns
        rw [← hns, hr0]
      · intro j hj
        unfold capAt
        rw [hkp, hleft j hj]
        rfl
  · intro r
    unfold fallbackImports reFindAll
    rw [hki, List.mem_dedup]
    constructor
    · intro hr
      obtain ⟨i, cap, rest0, hm0, hreq⟩ := scanAll_sound 'i' ("mport").data
        content.data.length content.data r hr
      refine ⟨i, ?_⟩
      unfold capAt
      rw [hm0, hreq]
      rfl
    · rintro ⟨i, hi⟩
      unfold capAt at hi
      cases hmm : matchPat ('i' :: ("mport").data) (content.data.drop i) with
      | none =>
        rw [hmm] at hi
        simp at hi
      | some pr =>
        obtain ⟨cap, rest0⟩ := pr
        rw [hmm] at hi
        have hi2 : String.mk cap = r := by
          simpa using hi
        rw [← hi2]
        exact scanAll_complete 'i' ("mport").data (by decide) (by decide) (by decide)
          content.data.length content.data (le_refl _) i cap rest0 hmm

/-- C8 witness: a text with one package clause and a repeated import. -/
theorem c8_witness :
    effectiveParse pstub "package a.b;\nimport c.d;\nimport c.d;" =
      (fallbackPkg "package a.b;\nimport c.d;\nimport c.d;",
       fallbackImports "package a.b;\nimport c.d;\nimport c.d;") ∧
    (∃ i, capAt ("package").data "package a.b;\nimport c.d;\nimport c.d;" i
        = some "a.b" ∧
      ∀ j, j < i →
        capAt ("package").data "package a.b;\nimport c.d;\nimport c.d;" j = none) ∧
    "c.d" ∈ fallbackImports "package a.b;\nimport c.d;\nimport c.d;" := by
  refine ⟨(c8_fallback_extraction pstub _).1 rfl, ?_, ?_⟩
  · exact (c8_fallback_extraction pstub _).2.2.1 "a.b" (by decide) (by decide)
  · exact ((c8_fallback_extraction pstub _).2.2.2 "c.d").mpr ⟨13, by decide⟩

end Analyzer
